import Mathlib

/-!
# A verification development for the rdsys resource-distribution backend

This file gives a shallow embedding, in Lean 4, of the core data structures
and operations of the rdsys backend (package `core`: hashrings, stencils,
resource collections, diffs) and of the Salmon distributor (users, proxies,
trust, invite tokens), together with theorems about their behaviour.

Modelling conventions:
* Go machine integers are modelled as `Nat`/`Int`; `uint64` hash keys are
  `Nat` (values below 2^64 in practice; overflow never matters for the
  properties proved here), and the `int64(uint64)` cast used to seed the
  stencil PRNG is made explicit in `toSigned64`.
* `time.Time` values are integers (an absolute clock); `time.Duration`
  values are integers in the same unit.  Functions that call `time.Now()`
  take the current time `now` as an explicit argument.
* Go slices are Lean lists.  Where the Go code mutates a slice's backing
  array while iterating over it (`Hashring.Prune`), the backing array and
  the current logical length are modelled explicitly.
* Go float64 arithmetic in the Salmon suspicion computation is modelled
  over `ℚ`; the constant `MaxSuspicion = 0.333` becomes `333/1000`.
* Fallible Go functions (returning `error`) return `Option`/a sum; a Go
  nil-pointer dereference or slice-bounds panic is modelled as `none` or
  an explicit `panic`-like constructor.
* The repository carries several snapshots of a few core files.  The
  embedding follows the coherent current variant: the
  `BackendResources` whose `Add` calls `Hashring.AddOrUpdate` and emits
  `ResourceDiff` events, the hashring in `pkg/core/stencil.go` with
  `AddOrUpdate`/`GetMany`/`Prune` over `Test().State`, and the
  `Resource` interface of the matching `domain.go`.  These are the
  variants that fit together (e.g. `AddOrUpdate` is called only from
  that `Add`).
-/

namespace Rdsys

/-! ## Resources (`pkg/core/domain.go`)

A resource, as seen by the hashring and stencil code: its type tag,
unique id (`Uid`, identity), object id (`Oid`, version), test state and
expiry.  The test-state constants follow `domain.go`:
`StateUntested = 0`, `StateFunctional = 1`, `StateNotFunctional = 2`. -/

def StateUntested : Nat := 0
def StateFunctional : Nat := 1
def StateNotFunctional : Nat := 2

structure Resource where
  rtype : String
  uid : Nat
  oid : Nat
  state : Nat
  expiry : Int
  deriving Repr, DecidableEq

/-- A hashring node (`Hashnode`): hash key, element, last-update time. -/
structure Hashnode where
  hashkey : Nat
  elem : Resource
  lastUpdate : Int
  deriving Repr, DecidableEq

/-- Default node, used only to give total array reads a value at
in-bounds indices (every use is guarded by an index bound). -/
def dnode : Hashnode :=
  { hashkey := 0
    elem := { rtype := "", uid := 0, oid := 0, state := 0, expiry := 0 }
    lastUpdate := 0 }

/-! ## `sort.Search` and `Hashring.getIndex`

`getIndex` binary-searches (`sort.Search`) for the first index whose key
is `≥ k`; `sort.Search` returns the length when there is none.  `searchGe`
embeds that specification.  `getIndex` then wraps the index to `0` when it
is past the end, and reports whether the key at the final index is an
exact match. -/

def searchGe (k : Nat) : List Hashnode → Nat
  | [] => 0
  | n :: ns => if k ≤ n.hashkey then 0 else searchGe k ns + 1

/-- The index wrap of `getIndex`: past-the-end search results wrap to
index 0. -/
def wrapIdx (ns : List Hashnode) (k : Nat) : Nat :=
  if searchGe k ns ≥ ns.length then 0 else searchGe k ns

/-- `Hashring.getIndex`: `none` models the empty-ring error (index `-1`);
otherwise `some (i, found)` gives the (wrapped) index and whether the key
at `i` equals `k`. -/
def getIndexRaw (ns : List Hashnode) (k : Nat) : Option (Nat × Bool) :=
  if ns.length = 0 then none
  else some (wrapIdx ns k, decide ((ns.getD (wrapIdx ns k) dnode).hashkey = k))

/-- The index of an exact match, when `getIndex` succeeds without error. -/
def getIndexFound (ns : List Hashnode) (k : Nat) : Option Nat :=
  match getIndexRaw ns k with
  | some (i, true) => some i
  | _ => none

/-! ## Ring mutations (`pkg/core/stencil.go`, hashring part)

`Add` appends the new node and re-sorts (`sort.Sort`).  All keys are
distinct whenever a node is actually inserted, so the result of the sort
is the unique sorted arrangement; `keyInsertSorted` realises it by
ordered insertion. -/

def mkNode (now : Int) (r : Resource) : Hashnode :=
  { hashkey := r.uid, elem := r, lastUpdate := now }

def keyInsertSorted (n : Hashnode) : List Hashnode → List Hashnode
  | [] => [n]
  | m :: ms => if n.hashkey < m.hashkey then n :: m :: ms else m :: keyInsertSorted n ms

/-- Refresh the `LastUpdate` field of the node at index `i`. -/
def refreshAt (now : Int) (i : Nat) (ns : List Hashnode) : List Hashnode :=
  ns.set i { ns.getD i dnode with lastUpdate := now }

/-- `Hashring.Add`: if the key is already present, refresh its timestamp
and report an error (`false` = error); otherwise insert sorted. -/
def ringAdd (now : Int) (r : Resource) (ns : List Hashnode) : List Hashnode × Bool :=
  match getIndexFound ns r.uid with
  | some i => (refreshAt now i ns, false)
  | none => (keyInsertSorted (mkNode now r) ns, true)

/-- `Hashring.AddOrUpdate`: refresh the timestamp when present, replace
the element if (and only if) the object id changed, insert otherwise. -/
def ringAddOrUpdate (now : Int) (r : Resource) (ns : List Hashnode) : List Hashnode :=
  match getIndexFound ns r.uid with
  | some i =>
    let ns' := refreshAt now i ns
    if (ns.getD i dnode).elem.oid ≠ r.oid then
      ns'.set i { ns'.getD i dnode with elem := r }
    else ns'
  | none => keyInsertSorted (mkNode now r) ns

/-- `Hashring.Remove`: drop the node with the resource's unique id;
`false` reports the not-found error. -/
def ringRemove (r : Resource) (ns : List Hashnode) : List Hashnode × Bool :=
  match getIndexFound ns r.uid with
  | some i => (ns.eraseIdx i, true)
  | none => (ns, false)

/-! ## Ring well-formedness

Rings built by the program are strictly sorted by key and every node's
key is its element's unique id. -/

def RingSorted (ns : List Hashnode) : Prop :=
  ns.Pairwise (fun a b => a.hashkey < b.hashkey)

def RingKeyed (ns : List Hashnode) : Prop :=
  ∀ n ∈ ns, n.hashkey = n.elem.uid

def RingWF (ns : List Hashnode) : Prop := RingSorted ns ∧ RingKeyed ns

/-! ## Stencils (`pkg/core/stencil.go`) -/

structure Interval where
  lo : Int
  hi : Int
  name : String
  deriving Repr, DecidableEq

/-- `Interval.Contains`. -/
def intervalContains (i : Interval) (n : Int) : Bool :=
  decide (i.lo ≤ n ∧ n ≤ i.hi)

/-- `Stencil.FindByValue`: first interval containing `n`. -/
def findByValue (s : List Interval) (n : Int) : Option Interval :=
  s.find? (fun i => intervalContains i n)

/-- `Stencil.GetUpperEnd`: max of the `End` fields, starting from 0;
error on the empty stencil. -/
def getUpperEnd (s : List Interval) : Option Int :=
  if s.isEmpty then none
  else some (s.foldl (fun m i => if i.hi > m then i.hi else m) 0)

/-- The Go `int64(uint64)` cast used for the PRNG seed. -/
def toSigned64 (u : Nat) : Int :=
  if u < 2 ^ 63 then (u : Int) else (u : Int) - 2 ^ 64

/-- `Stencil.GetFilterFunc` / `Stencil.DoesDistOwnResource`.  The Go code
re-seeds the deterministic PRNG with the resource's unique id and draws
`rand.Intn(upperEnd+1)`.  The generator itself is an arbitrary but fixed
deterministic function `draw : seed → bound → value`, which is all the
properties below depend on.  `DoesDistOwnResource` returns `false` both
when `GetFilterFunc` errors (empty stencil) and when the drawn value lies
in no interval. -/
def doesDistOwnResource (draw : Int → Nat → Nat) (s : List Interval)
    (r : Resource) (distName : String) : Bool :=
  match getUpperEnd s with
  | none => false
  | some ue =>
    let n := draw (toSigned64 r.uid) (ue + 1).toNat
    match findByValue s (n : Int) with
    | none => false
    | some i => decide (i.name = distName)

/-! ## The backend collection (`BackendResources`, `pkg/core/collection.go`)

The collection maps a resource type tag to its hashring (each coupled
with the shared stencil; the stencil plays no role in `Add`, so only the
rings are carried here).  Events model the calls to `propagateUpdate`. -/

inductive Event where
  | isNew (r : Resource)
  | changed (r : Resource)
  | isGone (r : Resource)
  deriving Repr, DecidableEq

/-- The per-type rings of a `BackendResources` collection. -/
structure Collection where
  rings : List (String × List Hashnode)
  deriving Repr, DecidableEq

def Collection.ring? (c : Collection) (t : String) : Option (List Hashnode) :=
  (c.rings.find? (fun p => p.1 = t)).map (fun p => p.2)

def Collection.setRing (c : Collection) (t : String) (ns : List Hashnode) : Collection :=
  ⟨c.rings.map (fun p => if p.1 = t then (p.1, ns) else p)⟩

/-- `BackendResources.Add`: ignore resources of unknown type; emit a
`new` event when the unique id is absent, a `changed` event when it is
present with a different object id, no event otherwise; then
`AddOrUpdate` the ring. -/
def backendAdd (now : Int) (c : Collection) (r : Resource) : Collection × List Event :=
  match c.ring? r.rtype with
  | none => (c, [])
  | some ns =>
    let evs :=
      match getIndexFound ns r.uid with
      | some i =>
        if (ns.getD i dnode).elem.oid ≠ r.oid then [Event.changed r] else []
      | none => [Event.isNew r]
    (c.setRing r.rtype (ringAddOrUpdate now r ns), evs)

/-! ## Channel (un)registration (`BackendResources.UnregisterChan`)

Channels are identified by numbers (Go compares channel values by
identity).  `UnregisterChan` builds `newSlice` starting from the empty
slice, copies the remainder around the first matching channel, and
unconditionally installs `newSlice` — so when the channel is not found,
the recipient is left with no channels at all. -/

def unregisterChans (chanSlice : List Nat) (c : Nat) : List Nat :=
  match chanSlice.findIdx? (fun x => x = c) with
  | some i =>
    if i = chanSlice.length - 1 then chanSlice.take i
    else chanSlice.take i ++ chanSlice.drop (i + 1)
  | none => []

/-- The per-distributor event recipients, reduced to their channel
lists.  `UnregisterChan` dereferences the recipient entry without a
presence check; a missing distributor is a nil-map dereference, modelled
as `none`. -/
def unregisterChan (recips : List (String × List Nat)) (dist : String) (c : Nat) :
    Option (List (String × List Nat)) :=
  match recips.find? (fun p => p.1 = dist) with
  | none => none
  | some (_, cs) =>
    some (recips.map (fun p => if p.1 = dist then (p.1, unregisterChans cs c) else p))

/-! ## Salmon user trust (`pkg/usecases/distributors/salmon/user.go`)

Times are in hours.  `daysPassed` is `int64(now.Sub(lastPromoted).Hours() / 24)`
— float division truncated toward zero, i.e. `Int.div` by 24 — and
`daysRequired` is `int64(math.Exp2(math.Abs(float64(trust + 1))))`,
i.e. `2 ^ |trust + 1|` (exact in float64 for all relevant levels).
`UpdateTrust` promotes by one level when due; it does not touch
`lastPromoted`. -/

def MaxTrustLevel : Int := 6
def UntouchableTrustLevel : Int := 7

structure SalUser where
  trust : Int
  lastPromoted : Int
  deriving Repr, DecidableEq

def updateTrust (now : Int) (u : SalUser) : SalUser :=
  if u.trust ≥ MaxTrustLevel then u
  else
    let daysPassed := (now - u.lastPromoted).tdiv 24
    let daysRequired : Int := 2 ^ (u.trust + 1).natAbs
    if daysPassed ≥ daysRequired then { u with trust := u.trust + 1 } else u

/-! ## Salmon suspicion (`pkg/usecases/distributors/salmon/proxy.go`)

`Proxy.SetBlocked` works on the users currently assigned to the proxy.
Float64 scores are modelled over `ℚ`; `MaxSuspicion = 0.333` becomes
`333/1000`. -/

def MaxSuspicion : ℚ := 333 / 1000

structure BlockUser where
  innocencePs : List ℚ
  banned : Bool
  deriving Repr, DecidableEq

/-- `Proxy.SetBlocked`: with `n = 0` users do nothing; otherwise append
the innocence probability `(n-1)/n` to every assigned user, recompute the
product score, and ban the user when `1 - score ≥ MaxSuspicion`. -/
def setBlocked (users : List BlockUser) : List BlockUser :=
  let numUsers := users.length
  if numUsers = 0 then users
  else
    users.map (fun u =>
      let probs := u.innocencePs ++ [((numUsers : ℚ) - 1) / (numUsers : ℚ)]
      let score := probs.prod
      { u with
        innocencePs := probs
        banned := u.banned || decide ((1 : ℚ) - score ≥ MaxSuspicion) })

/-! ## Salmon invite redemption (`pkg/usecases/distributors/salmon.go`)

`RedeemInvite` looks the token up, removes it, rejects it when expired,
and then looks the inviter up.  When the inviter is gone the code only
logs ("Bug: could not find valid user for invite token.") and proceeds to
dereference the nil inviter (`inviter.Trust - 1`), which is a crash, not
an error return.  The crash is the explicit outcome `nilInviterPanic`. -/

def InvitationTokenExpiry : Int := 24 * 7

structure TokenMetaInfo where
  inviterId : Int
  issueTime : Int
  deriving Repr, DecidableEq

structure SalmonState where
  tokenCache : List (String × TokenMetaInfo)
  users : List (Int × SalUser)
  deriving Repr, DecidableEq

inductive RedeemResult where
  /-- Redemption succeeded: the new user gets `inviter.trust - 1`. -/
  | ok (newUserTrust : Int) (st : SalmonState)
  /-- "invalid invite token". -/
  | unknownToken (st : SalmonState)
  /-- "invite token already expired". -/
  | expiredToken (st : SalmonState)
  /-- The inviter is gone: the code logs and dereferences nil. -/
  | nilInviterPanic (st : SalmonState)
  deriving Repr, DecidableEq

def removeToken (cache : List (String × TokenMetaInfo)) (tok : String) :
    List (String × TokenMetaInfo) :=
  cache.filter (fun p => p.1 ≠ tok)

def redeemInvite (now : Int) (st : SalmonState) (tok : String) : RedeemResult :=
  match st.tokenCache.find? (fun p => p.1 = tok) with
  | none => .unknownToken st
  | some (_, meta) =>
    let st' : SalmonState := { st with tokenCache := removeToken st.tokenCache tok }
    if now - meta.issueTime > InvitationTokenExpiry then .expiredToken st'
    else
      match st'.users.find? (fun p => p.1 = meta.inviterId) with
      | none => .nilInviterPanic st'
      | some (_, inviter) =>
        .ok (inviter.trust - 1)
          { st' with
            users := st'.users ++ [(nextUserId st'.users, { trust := inviter.trust - 1, lastPromoted := now })] }
where
  /-- `NewUser`: the fresh id is one past the largest existing id. -/
  nextUserId (us : List (Int × SalUser)) : Int :=
    us.foldl (fun m p => if p.1 ≥ m then p.1 + 1 else m) 0

/-! ## Batch lookup (`Hashring.GetMany`, `pkg/core/stencil.go`)

`GetMany` errors when more elements are requested than the ring holds;
otherwise it walks the `num` consecutive positions starting at the index
`getIndex` produced (the closest-ceiling index, wrapping modulo the
length), appending only those elements whose test state is functional.
The skip (`continue`) does not extend the window, so non-functional
entries simply reduce the number of returned elements. -/

def ringGetMany (ns : List Hashnode) (k : Nat) (num : Nat) : Option (List Resource) :=
  if num > ns.length then none
  else
    match getIndexRaw ns k with
    | none => none
    | some (i, _) =>
      some
        (((List.range num).map (fun j => (ns.getD ((i + j) % ns.length) dnode).elem)).filter
          (fun r => decide (r.state = StateFunctional)))

/-! ## Pruning (`Hashring.Prune` and `Hashring.Remove`)

`Prune` ranges over `h.Hashnodes` while calling `h.Remove` on the expired
elements.  The `range` clause captures the original slice header (pointer
and length), and `Remove`'s `append(left, right...)` shifts the elements
of the *same* backing array left, so later iterations read the mutated
array at the original indices — including stale positions beyond the
shrunken ring.  The model therefore carries the backing array (whose
length never changes during `Prune`) plus the ring's current length. -/

/-- `Hashring.Remove` acting on (backing array, current length): the ring
is `arr.take curLen`; on a hit at index `i` the elements of
`arr[i+1..curLen)` shift one slot left and the length drops by one, while
`arr[curLen-1..]` keeps its stale contents. -/
def removeInPlace (st : List Hashnode × Nat) (r : Resource) : List Hashnode × Nat :=
  match getIndexFound (st.1.take st.2) r.uid with
  | none => st
  | some i =>
    (st.1.take i ++ (st.1.drop (i + 1)).take (st.2 - 1 - i) ++ st.1.drop (st.2 - 1),
      st.2 - 1)

/-- `Hashring.Prune`: iterate the original indices `0..n-1`, reading the
mutated backing array; collect and remove the entries that have expired
(`now - lastUpdate > expiry`, strict). -/
def pruneGo (now : Int) (ns : List Hashnode) : List Hashnode × List Resource :=
  let res :=
    (List.range ns.length).foldl
      (fun (acc : (List Hashnode × Nat) × List Resource) j =>
        let node := acc.1.1.getD j dnode
        if now - node.lastUpdate > node.elem.expiry then
          (removeInPlace acc.1 node.elem, acc.2 ++ [node.elem])
        else acc)
      ((ns, ns.length), [])
  (res.1.1.take res.1.2, res.2)

/-! ## Salmon proxy search (`SalmonDistributor.findProxies`,
`pkg/usecases/distributors/salmon.go`)

A Salmon proxy is reduced to an identity and the number of users it is
assigned to (`IsDepleted` compares that number against `MaxClients`).
The invite graph below a user is a tree of users, each carrying their
assigned proxies. -/

def MaxClients : Nat := 10
def NumProxiesPerUser : Nat := 3

structure SProxy where
  pid : Nat
  numUsers : Nat
  deriving Repr, DecidableEq

def SProxy.isDepleted (p : SProxy) : Bool := decide (p.numUsers ≥ MaxClients)

inductive InviteTree where
  | mk (proxies : List SProxy) (invited : List InviteTree)
  deriving Repr

/-- The first loop of `findAssignedProxies`: collect the inviter's own
non-depleted proxies, returning as soon as `NumProxiesPerUser` are
found. -/
def ownProxies (acc : List SProxy) : List SProxy → List SProxy
  | [] => acc
  | p :: ps =>
    if p.isDepleted then ownProxies acc ps
    else
      let acc' := acc ++ [p]
      if acc'.length ≥ NumProxiesPerUser then acc' else ownProxies acc' ps

mutual

/-- `findAssignedProxies`: own non-depleted proxies first, then the
depth-first recursion over the invitees, truncating at
`NumProxiesPerUser`. -/
def findAssignedProxies : InviteTree → List SProxy
  | .mk proxies invited =>
    let own := ownProxies [] proxies
    if own.length ≥ NumProxiesPerUser then own
    else inviteLoop invited own

/-- The second loop of `findAssignedProxies`: recurse into each invitee,
concatenating, and truncate to `NumProxiesPerUser` as soon as that many
are collected. -/
def inviteLoop : List InviteTree → List SProxy → List SProxy
  | [], acc => acc
  | t :: ts, acc =>
    let acc' := acc ++ findAssignedProxies t
    if acc'.length ≥ NumProxiesPerUser then acc'.take NumProxiesPerUser
    else inviteLoop ts acc'

end

/-- The portion of `SalmonDistributor` state that `findProxies` touches:
the per-type unassigned and assigned queues (`core.ResourceMap`s). -/
structure FPState where
  unassigned : List (String × List SProxy)
  assigned : List (String × List SProxy)
  deriving Repr, DecidableEq

/-- A Go map read: a missing key yields the zero value (nil slice). -/
def mapLookup (m : List (String × List SProxy)) (t : String) : List SProxy :=
  ((m.find? (fun p => p.1 = t)).map (fun p => p.2)).getD []

/-- A Go map write: update the key in place, inserting it if missing. -/
def mapSet (m : List (String × List SProxy)) (t : String) (v : List SProxy) :
    List (String × List SProxy) :=
  if (m.find? (fun p => p.1 = t)).isSome then
    m.map (fun p => if p.1 = t then (p.1, v) else p)
  else m ++ [(t, v)]

/-- The `findProxies` caller's user: only the presence and subtree of the
inviter matter. -/
structure FPUser where
  invitedBy : Option InviteTree
  deriving Repr

/-- `SalmonDistributor.findProxies`.  Beware two faithful details of the
source: the traversal result is bound with `:=` inside the `if` block,
shadowing the outer `proxies` variable, so unless the traversal found
exactly `NumProxiesPerUser` proxies its result is discarded; and the
clamp compares against `len(s.UnassignedProxies)` — the number of keys of
the map — not the length of the per-type queue.  Slicing the queue past
its length is a Go bounds panic, modelled as `none` (when the queue's
capacity exceeds its length Go would instead expose stale elements; no
theorem below depends on this branch). -/
def findProxies (st : FPState) (u : Option FPUser) (rType : String) :
    Option (List SProxy × FPState) :=
  match u with
  | none => some ([], st)
  | some user =>
    let outer : List SProxy := []
    let early : Option (List SProxy) :=
      match user.invitedBy with
      | some inviter =>
        let inner := findAssignedProxies inviter
        if inner.length = NumProxiesPerUser then some inner else none
      | none => none
    match early with
    | some ps => some (ps, st)
    | none =>
      let numRemaining := NumProxiesPerUser - outer.length
      let numRemaining :=
        if st.unassigned.length < numRemaining then st.unassigned.length else numRemaining
      let queue := mapLookup st.unassigned rType
      if queue.length < numRemaining then none
      else
        let newProxies := queue.take numRemaining
        let st' : FPState :=
          { unassigned := mapSet st.unassigned rType (queue.drop numRemaining)
            assigned := mapSet st.assigned rType (mapLookup st.assigned rType ++ newProxies) }
        some (outer ++ newProxies, st')

/-! ## Hashring diff (`Hashring.Diff` / `Hashring.ApplyDiff`)

`Diff` walks `h1` classifying each element as new (uid absent from `h2`)
or changed (uid present, oid differs), then walks `h2` collecting the
gone elements (uid absent from `h1`).  The Go code groups each bucket by
resource type in a `ResourceMap` and `ApplyDiff` iterates those maps in
unspecified order; the buckets are flattened to lists here in traversal
order (within a phase all operations act on distinct unique ids, so any
order produces the same ring). -/

structure RDiff where
  new : List Resource
  changed : List Resource
  gone : List Resource
  deriving Repr, DecidableEq

def ringDiff (h1 h2 : List Hashnode) : RDiff :=
  let nc :=
    h1.foldl
      (fun (acc : List Resource × List Resource) n =>
        match getIndexFound h2 n.elem.uid with
        | none => (acc.1 ++ [n.elem], acc.2)
        | some i =>
          if n.elem.oid ≠ (h2.getD i dnode).elem.oid then (acc.1, acc.2 ++ [n.elem])
          else acc)
      ([], [])
  let gone :=
    h2.foldl
      (fun g m =>
        match getIndexFound h1 m.elem.uid with
        | none => g ++ [m.elem]
        | some _ => g)
      []
  ⟨nc.1, nc.2, gone⟩

/-- `Hashring.ApplyDiff`: `Add` every new element, `AddOrUpdate` every
changed element, `Remove` every gone element, in that phase order. -/
def ringApplyDiff (now : Int) (ns : List Hashnode) (d : RDiff) : List Hashnode :=
  let ns1 := d.new.foldl (fun acc r => (ringAdd now r acc).1) ns
  let ns2 := d.changed.foldl (fun acc r => ringAddOrUpdate now r acc) ns1
  d.gone.foldl (fun acc r => (ringRemove r acc).1) ns2

/-! ## Observation predicates used by the theorems -/

/-- The ring contains a node whose element has unique id `u` and object
id `o`. -/
def hasPair (ns : List Hashnode) (u o : Nat) : Prop :=
  ∃ n ∈ ns, n.elem.uid = u ∧ n.elem.oid = o

/-- The ring contains a node with hash key `u`. -/
def uidMem (ns : List Hashnode) (u : Nat) : Prop :=
  ∃ n ∈ ns, n.hashkey = u

/-- `i` is the closest-ceiling index for key `k`: the first index whose
key is `≥ k`, or `0` (wrap-around) when every key is below `k`. -/
def CeilIdx (ns : List Hashnode) (k : Nat) (i : Nat) : Prop :=
  i < ns.length ∧
    ((k ≤ (ns.getD i dnode).hashkey ∧ ∀ j < i, (ns.getD j dnode).hashkey < k) ∨
      (i = 0 ∧ ∀ j < ns.length, (ns.getD j dnode).hashkey < k))

/-- The `num` consecutive elements of the ring starting at index `i`,
wrapping modulo the length. -/
def ringWindow (ns : List Hashnode) (i num : Nat) : List Resource :=
  (List.range num).map (fun j => (ns.getD ((i + j) % ns.length) dnode).elem)

/-- Default `BlockUser`, for total indexing. -/
def dBUser : BlockUser := { innocencePs := [], banned := false }

/-! ## Concrete inputs used by counterexamples and evaluations -/

/-- A resource of type `"x"`, functional unless stated otherwise. -/
def mkRes (u o : Nat) (st : Nat := StateFunctional) : Resource :=
  { rtype := "x", uid := u, oid := o, state := st, expiry := 0 }

/-- Three nodes with expiry 0 and last update at time 0: at `now = 1` all
three have expired. -/
def nodeA : Hashnode := { hashkey := 1, elem := mkRes 1 10, lastUpdate := 0 }
def nodeB : Hashnode := { hashkey := 2, elem := mkRes 2 20, lastUpdate := 0 }
def nodeC : Hashnode := { hashkey := 3, elem := mkRes 3 30, lastUpdate := 0 }

/-- A one-node ring whose only element is not functional. -/
def dysfRing : List Hashnode :=
  [{ hashkey := 5, elem := mkRes 5 50 StateNotFunctional, lastUpdate := 0 }]

/-- An inviter holding exactly one non-depleted proxy. -/
def foundProxy : SProxy := { pid := 100, numUsers := 0 }
def oneProxyInviter : InviteTree := .mk [foundProxy] []

/-- An unassigned map with a single type whose queue holds three
proxies. -/
def queueP (i : Nat) : SProxy := { pid := i, numUsers := 0 }
def oneTypeState : FPState :=
  { unassigned := [("obfs4", [queueP 1, queueP 2, queueP 3])], assigned := [] }

/-- A token cache holding an unexpired token whose inviter (id 42) is
absent from the user map. -/
def staleState : SalmonState :=
  { tokenCache := [("T", { inviterId := 42, issueTime := 0 })]
    users := [(0, { trust := 7, lastPromoted := 0 })] }

/-! # Theorems -/

/-! ## C2: stencil assignment depends on the unique id alone -/

/-- C2: For every stencil and distributor name, the assignment decision
computed by `GetFilterFunc`/`DoesDistOwnResource` is a deterministic
function of the resource's unique id alone: resources with equal `Uid`
(whatever their `Oid` or other fields) are both admitted or both
rejected, and the filter is a pure function, so repeated evaluations on
the same resource agree. -/
theorem stencil_assignment_uid_only (draw : Int → Nat → Nat) (s : List Interval)
    (distName : String) (r1 r2 : Resource) (h : r1.uid = r2.uid) :
    doesDistOwnResource draw s r1 distName = doesDistOwnResource draw s r2 distName ∧
    ∀ r : Resource,
      doesDistOwnResource draw s r distName = doesDistOwnResource draw s r distName := by
  refine ⟨?_, fun _ => rfl⟩
  unfold doesDistOwnResource
  rw [h]

/-- Witness for C2 at a concrete stencil and pair of resources that
share a unique id but differ in object id. -/
theorem stencil_assignment_uid_only_witness :
    doesDistOwnResource (fun s b => s.natAbs % (b + 1)) [⟨0, 0, "https"⟩, ⟨1, 2, "moat"⟩]
        (mkRes 7 1) "moat"
      = doesDistOwnResource (fun s b => s.natAbs % (b + 1)) [⟨0, 0, "https"⟩, ⟨1, 2, "moat"⟩]
        (mkRes 7 99) "moat" :=
  (stencil_assignment_uid_only (fun s b => s.natAbs % (b + 1))
    [⟨0, 0, "https"⟩, ⟨1, 2, "moat"⟩] "moat" (mkRes 7 1) (mkRes 7 99) rfl).1

/-! ## C8: `UpdateTrust` and repeated calls

`UpdateTrust` never refreshes `lastPromoted`, so the claim that a second
call at the same instant never promotes further is false: with enough
elapsed days the second call clears the next threshold too. -/

/-- C8 counterexample: a user at trust 0 promoted 4 days ago (96 hours).
One call promotes to 1 (4 ≥ 2^1 days); an immediate second call
promotes again to 2 (4 ≥ 2^2 days), because `lastPromoted` was not
updated.  So twice is not once. -/
theorem updateTrust_not_idempotent :
    updateTrust 96 (updateTrust 96 ⟨0, 0⟩) ≠ updateTrust 96 ⟨0, 0⟩ := by decide

/-- C8 (amended): a single `UpdateTrust` call promotes by at most one
level, and applying it twice at a fixed time equals applying it once
*provided* the elapsed days stay below the following level's threshold
`2^|trust+2|` (i.e. within one elapsed promotion period). -/
theorem updateTrust_idempotent_within_period (now : Int) (u : SalUser)
    (hlt : u.trust < MaxTrustLevel)
    (hperiod : (now - u.lastPromoted).tdiv 24 < 2 ^ (u.trust + 2).natAbs) :
    updateTrust now (updateTrust now u) = updateTrust now u ∧
    ((updateTrust now u).trust = u.trust ∨ (updateTrust now u).trust = u.trust + 1) ∧
    (updateTrust now u).lastPromoted = u.lastPromoted := by
  have hnot : ¬ u.trust ≥ MaxTrustLevel := not_le.mpr hlt
  by_cases hp : (now - u.lastPromoted).tdiv 24 ≥ 2 ^ (u.trust + 1).natAbs
  · have h1 : updateTrust now u = { u with trust := u.trust + 1 } := by
      unfold updateTrust
      rw [if_neg hnot, if_pos hp]
    refine ⟨?_, by rw [h1]; exact Or.inr rfl, by rw [h1]⟩
    rw [h1]
    unfold updateTrust
    by_cases h6 : u.trust + 1 ≥ MaxTrustLevel
    · rw [if_pos h6]
    · rw [if_neg h6, if_neg]
      intro hge
      rw [show u.trust + 1 + 1 = u.trust + 2 by ring] at hge
      exact absurd hge (not_le.mpr hperiod)
  · have h1 : updateTrust now u = u := by
      unfold updateTrust
      rw [if_neg hnot, if_neg hp]
    rw [h1]
    exact ⟨h1, Or.inl rfl, rfl⟩

/-- Witness for C8's amended theorem: trust 5, four elapsed days, below
the next threshold `2^7 = 128` days. -/
theorem updateTrust_idempotent_within_period_witness :
    updateTrust 96 (updateTrust 96 ⟨5, 0⟩) = updateTrust 96 ⟨5, 0⟩ :=
  (updateTrust_idempotent_within_period 96 ⟨5, 0⟩ (by decide) (by decide)).1

/-! ## C9: redeeming a token whose inviter vanished

`RedeemInvite` checks whether the inviter still exists but only *logs*
("Bug: could not find valid user for invite token.") when it does not,
then dereferences the nil `inviter` pointer: a crash, not the
stale-inviter error return the specification describes. -/

/-- C9: at a state whose token cache maps the unexpired token `"T"` to
inviter id 42 while the user map has no user 42, `RedeemInvite` removes
the token and then hits the nil-inviter dereference instead of
returning a stale-inviter error. -/
theorem redeemInvite_nil_inviter_crash :
    redeemInvite 1 staleState "T" =
      .nilInviterPanic { tokenCache := [], users := [(0, { trust := 7, lastPromoted := 0 })] } := by
  decide

/-! ## C10: unregistering subscriber channels -/

/-- The first index of the channel `c` in a slice split around its first
occurrence. -/
theorem findIdx_first_chan (c : Nat) (l1 l2 : List Nat) (h : c ∉ l1) :
    (l1 ++ c :: l2).findIdx? (fun x => x = c) = some l1.length := by
  induction l1 with
  | nil => simp [List.findIdx?_cons]
  | cons a l1 ih =>
    have ha : ¬ (a = c) := fun hac => h (hac ▸ List.mem_cons_self a l1)
    have ih' := ih (fun hm => h (List.mem_cons_of_mem a hm))
    simp [List.findIdx?_cons, ha, ih']

/-- Removing a channel that is present: the result is the slice with the
first occurrence cut out. -/
theorem unregisterChans_of_mem (c : Nat) (l1 l2 : List Nat) (h : c ∉ l1) :
    unregisterChans (l1 ++ c :: l2) c = l1 ++ l2 := by
  unfold unregisterChans
  rw [findIdx_first_chan c l1 l2 h]
  show (if l1.length = (l1 ++ c :: l2).length - 1 then (l1 ++ c :: l2).take l1.length
      else (l1 ++ c :: l2).take l1.length ++ (l1 ++ c :: l2).drop (l1.length + 1))
    = l1 ++ l2
  have hlen : (l1 ++ c :: l2).length = l1.length + l2.length + 1 := by
    rw [List.length_append, List.length_cons]
    omega
  have htake : (l1 ++ c :: l2).take l1.length = l1 := List.take_left l1 (c :: l2)
  have hdrop : (l1 ++ c :: l2).drop (l1.length + 1) = l2 := by
    rw [← List.drop_drop, List.drop_left]
    rfl
  by_cases hend : l1.length = (l1 ++ c :: l2).length - 1
  · have hl2 : l2 = [] := by
      rw [hlen] at hend
      have : l2.length = 0 := by omega
      exact List.length_eq_zero.mp this
    subst hl2
    rw [if_pos hend, htake]
    simp
  · rw [if_neg hend, htake, hdrop]

/-- Removing a channel that is absent leaves the recipient with no
channels at all (`newSlice` is never reassigned from its empty initial
value). -/
theorem unregisterChans_of_not_mem (cs : List Nat) (c : Nat) (h : c ∉ cs) :
    unregisterChans cs c = [] := by
  unfold unregisterChans
  have hnone : cs.findIdx? (fun x => x = c) = none := by
    rw [List.findIdx?_eq_none_iff]
    intro x hx
    rw [decide_eq_false_iff_not]
    intro hxc
    exact h (hxc ▸ hx)
  rw [hnone]

/-- C10: For a distributor whose event recipient holds the channel list
`cs`, `UnregisterChan` with a channel that is registered removes exactly
that channel (its first occurrence) and keeps all others, while
`UnregisterChan` with a channel that is not registered leaves the
recipient with an *empty* channel list — every registered channel is
removed. -/
theorem unregisterChan_spec (recips : List (String × List Nat)) (dist : String)
    (c : Nat) (cs : List Nat)
    (hfind : recips.find? (fun p => p.1 = dist) = some (dist, cs))
    (hne : cs ≠ []) :
    (∀ l1 l2, cs = l1 ++ c :: l2 → c ∉ l1 →
      unregisterChan recips dist c =
        some (recips.map (fun p => if p.1 = dist then (p.1, l1 ++ l2) else p))) ∧
    (c ∉ cs →
      unregisterChan recips dist c =
        some (recips.map (fun p => if p.1 = dist then (p.1, ([] : List Nat)) else p))) := by
  constructor
  · intro l1 l2 hcs hl1
    unfold unregisterChan
    rw [hfind]
    show some (recips.map (fun p => if p.1 = dist then (p.1, unregisterChans cs c) else p)) = _
    rw [hcs, unregisterChans_of_mem c l1 l2 hl1]
  · intro hmem
    unfold unregisterChan
    rw [hfind]
    show some (recips.map (fun p => if p.1 = dist then (p.1, unregisterChans cs c) else p)) = _
    rw [unregisterChans_of_not_mem cs c hmem]

/-- Witness for C10: a recipient with channels `[1, 2, 3]`.
Unregistering the registered channel 2 keeps `[1, 3]`; unregistering the
unknown channel 9 clears the whole list. -/
theorem unregisterChan_spec_witness :
    unregisterChan [("https", [1, 2, 3])] "https" 2 = some [("https", [1, 3])] ∧
    unregisterChan [("https", [1, 2, 3])] "https" 9 = some [("https", [])] := by
  constructor
  · have h := (unregisterChan_spec [("https", [1, 2, 3])] "https" 2 [1, 2, 3]
      (by decide) (by decide)).1 [1] [3] rfl (by decide)
    simpa using h
  · have h := (unregisterChan_spec [("https", [1, 2, 3])] "https" 9 [1, 2, 3]
      (by decide) (by decide)).2 (by decide)
    simpa using h

/-! ## C7: `SetBlocked` suspicion accounting -/

/-- C7: For a proxy with `n ≥ 1` assigned users, `SetBlocked` appends the
innocence probability `(n-1)/n` to every assigned user and marks banned
exactly those users (beyond the already-banned) whose suspicion
`1 - ∏ innocence_probs` reaches `MaxSuspicion`; with two fresh users a
single call gives each suspicion `1/2 ≥ 0.333` and bans both; with no
users nothing changes. -/
theorem setBlocked_spec (users : List BlockUser) :
    (users.length = 0 → setBlocked users = users) ∧
    (∀ i, i < users.length →
      ((setBlocked users).getD i dBUser).innocencePs
          = (users.getD i dBUser).innocencePs
              ++ [((users.length : ℚ) - 1) / (users.length : ℚ)] ∧
      (((setBlocked users).getD i dBUser).banned = true ↔
        ((users.getD i dBUser).banned = true ∨
          (1 : ℚ) - ((setBlocked users).getD i dBUser).innocencePs.prod ≥ MaxSuspicion))) ∧
    setBlocked [⟨[], false⟩, ⟨[], false⟩]
      = [⟨[(1 : ℚ) / 2], true⟩, ⟨[(1 : ℚ) / 2], true⟩] ∧
    (1 : ℚ) - ([(1 : ℚ) / 2] : List ℚ).prod = 1 / 2 := by
  refine ⟨?_, ?_, ?_, ?_⟩
  · intro h0
    unfold setBlocked
    rw [if_pos h0]
  · intro i hi
    have hlen : users.length ≠ 0 := by omega
    have hmap : setBlocked users
        = users.map (fun u =>
            let probs := u.innocencePs ++ [((users.length : ℚ) - 1) / (users.length : ℚ)]
            { u with
              innocencePs := probs
              banned := u.banned || decide ((1 : ℚ) - probs.prod ≥ MaxSuspicion) }) := by
      unfold setBlocked
      rw [if_neg hlen]
    have hget : users.get? i = some (users.getD i dBUser) := by
      rw [List.getD_eq_getD_get?]
      cases hg : users.get? i with
      | none => exact absurd (List.get?_eq_none.mp hg) (by omega)
      | some u => rfl
    have hgetS : (setBlocked users).getD i dBUser
        = (let u := users.getD i dBUser
           let probs := u.innocencePs ++ [((users.length : ℚ) - 1) / (users.length : ℚ)]
           { u with
             innocencePs := probs
             banned := u.banned || decide ((1 : ℚ) - probs.prod ≥ MaxSuspicion) }) := by
      rw [hmap, List.getD_eq_getD_get?, List.get?_map, hget]
      rfl
    refine ⟨by rw [hgetS], ?_⟩
    rw [hgetS]
    simp only [Bool.or_eq_true, decide_eq_true_eq]
  · unfold setBlocked
    norm_num [MaxSuspicion]
  · norm_num

/-- Witness for C7: the two-user scenario extracted from the theorem at
the concrete input. -/
theorem setBlocked_spec_witness :
    setBlocked [⟨[], false⟩, ⟨[], false⟩]
      = [⟨[(1 : ℚ) / 2], true⟩, ⟨[(1 : ℚ) / 2], true⟩] :=
  (setBlocked_spec [⟨[], false⟩, ⟨[], false⟩]).2.2.1

/-! ## C5: `Prune` mutates the slice it is iterating

`Prune` ranges over the node slice while `Remove` shifts the same
backing array left, so after a removal the loop reads shifted (and,
at the tail, stale) entries.  With three consecutive expired nodes the
middle node survives even though it has expired, and the last node is
reported as pruned twice. -/

/-- C5: at `now = 1` the ring `[nodeA, nodeB, nodeC]` (all three expired:
elapsed 1 > expiry 0) prunes to `[nodeB]` — the expired `nodeB` survives
— and the returned list is `[A, C, C]`, repeating `C` and missing `B`;
the boundary case (`now = 0`, elapsed 0 = expiry 0) correctly prunes
nothing. -/
theorem prune_remove_while_iterating :
    pruneGo 1 [nodeA, nodeB, nodeC] = ([nodeB], [mkRes 1 10, mkRes 3 30, mkRes 3 30]) ∧
    (1 : Int) - nodeB.lastUpdate > nodeB.elem.expiry ∧
    pruneGo 0 [nodeA, nodeB, nodeC] = ([nodeA, nodeB, nodeC], []) := by
  decide

/-! ## C6: `findProxies` discards partial traversal results

Inside `findProxies` the traversal result is bound with `:=` in the
`if invitee.InvitedBy != nil` block, shadowing the outer `proxies`
variable; unless the traversal found exactly `NumProxiesPerUser` proxies
its result is dropped, and the number of queue entries taken is clamped
by the number of *keys* of the unassigned map rather than by the queue
length. -/

/-- C6: an inviter subtree holding exactly one non-depleted proxy and a
queue of three unassigned proxies of the requested type.  The traversal
finds that one proxy, but `findProxies` returns only a single fresh
queue proxy (`queueP 1`) — the found proxy is discarded and, the map
having one key, only `min 3 1 = 1` queue entry is taken — instead of the
found proxy plus two queue proxies.  The exactly-three traversal case
does return the three traversal proxies untouched. -/
theorem findProxies_drops_partial_traversal :
    findAssignedProxies oneProxyInviter = [foundProxy] ∧
    findProxies oneTypeState (some ⟨some oneProxyInviter⟩) "obfs4" =
      some ([queueP 1],
        { unassigned := [("obfs4", [queueP 2, queueP 3])]
          assigned := [("obfs4", [queueP 1])] }) ∧
    (findAssignedProxies (InviteTree.mk [foundProxy, queueP 8, queueP 9] [])).length
        = NumProxiesPerUser ∧
    findProxies oneTypeState
        (some ⟨some (InviteTree.mk [foundProxy, queueP 8, queueP 9] [])⟩) "obfs4"
      = some ([foundProxy, queueP 8, queueP 9], oneTypeState) :=
  ⟨rfl, rfl, rfl, rfl⟩

/-! ## Properties of `searchGe`, `wrapIdx` and `getIndexFound` -/

theorem searchGe_le_length (k : Nat) (ns : List Hashnode) : searchGe k ns ≤ ns.length := by
  induction ns with
  | nil => simp [searchGe]
  | cons n ns ih =>
    unfold searchGe
    by_cases h : k ≤ n.hashkey
    · rw [if_pos h]
      simp
    · rw [if_neg h]
      simpa using ih

theorem searchGe_before_lt (k : Nat) (ns : List Hashnode) :
    ∀ j, j < searchGe k ns → (ns.getD j dnode).hashkey < k := by
  induction ns with
  | nil =>
    intro j hj
    simp [searchGe] at hj
  | cons n ns ih =>
    intro j hj
    unfold searchGe at hj
    by_cases h : k ≤ n.hashkey
    · rw [if_pos h] at hj
      omega
    · rw [if_neg h] at hj
      cases j with
      | zero => simpa using Nat.lt_of_not_le h
      | succ j =>
        have := ih j (by omega)
        simpa using this

theorem searchGe_key_ge (k : Nat) (ns : List Hashnode) (h : searchGe k ns < ns.length) :
    k ≤ (ns.getD (searchGe k ns) dnode).hashkey := by
  induction ns with
  | nil => simp [searchGe] at h
  | cons n ns ih =>
    unfold searchGe at h ⊢
    by_cases hle : k ≤ n.hashkey
    · rw [if_pos hle] at h ⊢
      simpa using hle
    · rw [if_neg hle] at h ⊢
      have := ih (by simpa using h)
      simpa using this

theorem ringSorted_get_lt (ns : List Hashnode) (hs : RingSorted ns) {i j : Nat}
    (hij : i < j) (hj : j < ns.length) :
    (ns.getD i dnode).hashkey < (ns.getD j dnode).hashkey := by
  have hi : i < ns.length := lt_trans hij hj
  rw [List.getD_eq_get _ _ hi, List.getD_eq_get _ _ hj]
  exact List.pairwise_iff_get.mp hs ⟨i, hi⟩ ⟨j, hj⟩ (Fin.mk_lt_mk.mpr hij)

/-- In a sorted ring, `sort.Search` lands exactly on the index holding
the key, when the key is present. -/
theorem searchGe_eq_of_key (ns : List Hashnode) (k : Nat) (hs : RingSorted ns)
    {j : Nat} (hj : j < ns.length) (hk : (ns.getD j dnode).hashkey = k) :
    searchGe k ns = j := by
  have hle : searchGe k ns ≤ j := by
    by_contra hgt
    push_neg at hgt
    exact absurd hk (Nat.ne_of_lt (searchGe_before_lt k ns j hgt))
  rcases Nat.lt_or_ge (searchGe k ns) j with hlt | hge
  · have h1 : k ≤ (ns.getD (searchGe k ns) dnode).hashkey :=
      searchGe_key_ge k ns (lt_trans hlt hj)
    have h2 : (ns.getD (searchGe k ns) dnode).hashkey < (ns.getD j dnode).hashkey :=
      ringSorted_get_lt ns hs hlt hj
    rw [hk] at h2
    omega
  · omega

theorem wrapIdx_lt (ns : List Hashnode) (k : Nat) (h : ns.length ≠ 0) :
    wrapIdx ns k < ns.length := by
  unfold wrapIdx
  by_cases hge : searchGe k ns ≥ ns.length
  · rw [if_pos hge]
    omega
  · rw [if_neg hge]
    omega

/-- The single unfolding equation for `getIndexFound`. -/
theorem getIndexFound_eq (ns : List Hashnode) (k : Nat) :
    getIndexFound ns k =
      if ns.length = 0 then none
      else if (ns.getD (wrapIdx ns k) dnode).hashkey = k then some (wrapIdx ns k)
      else none := by
  unfold getIndexFound getIndexRaw
  by_cases hnil : ns.length = 0
  · rw [if_pos hnil, if_pos hnil]
  · rw [if_neg hnil, if_neg hnil]
    by_cases hkey : (ns.getD (wrapIdx ns k) dnode).hashkey = k
    · rw [decide_eq_true hkey, if_pos hkey]
    · rw [decide_eq_false hkey, if_neg hkey]

/-- A found index reads back the searched key (no sortedness needed). -/
theorem getIndexFound_spec (ns : List Hashnode) (k : Nat) {i : Nat}
    (h : getIndexFound ns k = some i) :
    i < ns.length ∧ (ns.getD i dnode).hashkey = k := by
  rw [getIndexFound_eq] at h
  by_cases hnil : ns.length = 0
  · rw [if_pos hnil] at h
    cases h
  · rw [if_neg hnil] at h
    by_cases hkey : (ns.getD (wrapIdx ns k) dnode).hashkey = k
    · rw [if_pos hkey] at h
      cases h
      exact ⟨wrapIdx_lt ns k hnil, hkey⟩
    · rw [if_neg hkey] at h
      cases h

/-- Completeness on sorted rings: a present key is found, at its
index. -/
theorem getIndexFound_of_key (ns : List Hashnode) (k : Nat) (hs : RingSorted ns)
    {j : Nat} (hj : j < ns.length) (hk : (ns.getD j dnode).hashkey = k) :
    getIndexFound ns k = some j := by
  have hnil : ¬ ns.length = 0 := by omega
  have hsg : searchGe k ns = j := searchGe_eq_of_key ns k hs hj hk
  have hwrap : wrapIdx ns k = j := by
    unfold wrapIdx
    rw [hsg, if_neg (by omega)]
  rw [getIndexFound_eq, if_neg hnil, hwrap, if_pos hk]

/-- On sorted rings, `getIndexFound` returns `none` exactly when the key
is absent. -/
theorem getIndexFound_none_iff (ns : List Hashnode) (k : Nat) (hs : RingSorted ns) :
    getIndexFound ns k = none ↔ ∀ j < ns.length, (ns.getD j dnode).hashkey ≠ k := by
  constructor
  · intro h j hj hk
    rw [getIndexFound_of_key ns k hs hj hk] at h
    cases h
  · intro hall
    rw [getIndexFound_eq]
    by_cases hnil : ns.length = 0
    · rw [if_pos hnil]
    · rw [if_neg hnil, if_neg (hall _ (wrapIdx_lt ns k hnil))]

/-- Key-membership formulation of `getIndexFound = none`. -/
theorem getIndexFound_none_iff_not_uidMem (ns : List Hashnode) (k : Nat)
    (hs : RingSorted ns) :
    getIndexFound ns k = none ↔ ¬ uidMem ns k := by
  rw [getIndexFound_none_iff ns k hs]
  unfold uidMem
  constructor
  · rintro hall ⟨n, hn, hkey⟩
    obtain ⟨i, hilt, hi⟩ := List.mem_iff_getElem.mp hn
    apply hall i hilt
    rw [List.getD_eq_getElem _ _ hilt, hi, hkey]
  · intro hnm j hj hk
    refine hnm ⟨ns.getD j dnode, ?_, hk⟩
    rw [List.getD_eq_getElem _ _ hj]
    exact List.getElem_mem hj

/-! ## Sorted insertion lemmas -/

theorem keyInsertSorted_perm (n : Hashnode) (ns : List Hashnode) :
    (keyInsertSorted n ns).Perm (n :: ns) := by
  induction ns with
  | nil => simp [keyInsertSorted]
  | cons m ms ih =>
    unfold keyInsertSorted
    by_cases h : n.hashkey < m.hashkey
    · rw [if_pos h]
    · rw [if_neg h]
      exact (ih.cons m).trans (List.Perm.swap n m ms)

theorem keyInsertSorted_mem {x n : Hashnode} {ns : List Hashnode} :
    x ∈ keyInsertSorted n ns ↔ x = n ∨ x ∈ ns := by
  rw [(keyInsertSorted_perm n ns).mem_iff]
  simp

theorem keyInsertSorted_sorted (n : Hashnode) (ns : List Hashnode) (hs : RingSorted ns)
    (hne : ∀ m ∈ ns, n.hashkey ≠ m.hashkey) : RingSorted (keyInsertSorted n ns) := by
  induction ns with
  | nil => simp [keyInsertSorted, RingSorted]
  | cons m ms ih =>
    unfold keyInsertSorted
    rcases List.pairwise_cons.mp hs with ⟨hm, hms⟩
    by_cases h : n.hashkey < m.hashkey
    · rw [if_pos h]
      refine List.pairwise_cons.mpr ⟨?_, hs⟩
      intro b hb
      rcases List.mem_cons.mp hb with rfl | hb
      · exact h
      · exact lt_trans h (hm b hb)
    · rw [if_neg h]
      have hmn : m.hashkey < n.hashkey := by
        have := hne m (List.mem_cons_self m ms)
        omega
      refine List.pairwise_cons.mpr
        ⟨?_, ih hms (fun b hb => hne b (List.mem_cons_of_mem m hb))⟩
      intro b hb
      rcases keyInsertSorted_mem.mp hb with rfl | hb
      · exact hmn
      · exact hm b hb

theorem getD_set_self (ns : List Hashnode) (i : Nat) (v : Hashnode) (hi : i < ns.length) :
    (ns.set i v).getD i dnode = v := by
  rw [List.getD_eq_getElem _ _ (by rw [List.length_set]; exact hi)]
  exact List.getElem_set_self _

/-! ## C1: `BackendResources.Add` -/

/-- C1: For a resource `r` added to the backend collection: with no
hashring for `r`'s type the collection is unchanged and no event is
emitted; with `r.Uid` absent a `new` event carrying `r` is emitted and a
node for `r` is inserted in sorted position (the new ring is sorted and
is a permutation of the old ring plus `r`'s node); with `r.Uid` present
under the same `Oid`, no event is emitted and only that node's
`LastUpdate` is refreshed; with `r.Uid` present under a different `Oid`,
a `changed` event carrying `r` is emitted and that node's element is
replaced by `r` with its `LastUpdate` refreshed — in both cases all
other nodes are untouched (`List.set` at the matching index). -/
theorem backendAdd_spec (now : Int) (c : Collection) (r : Resource) :
    (c.ring? r.rtype = none → backendAdd now c r = (c, [])) ∧
    (∀ ns, c.ring? r.rtype = some ns → RingWF ns →
      ((¬ uidMem ns r.uid →
          (backendAdd now c r).2 = [Event.isNew r] ∧
          ∃ ns', (backendAdd now c r).1 = c.setRing r.rtype ns' ∧
            RingSorted ns' ∧ ns'.Perm (mkNode now r :: ns)) ∧
        (∀ i, i < ns.length → (ns.getD i dnode).hashkey = r.uid →
          ((ns.getD i dnode).elem.oid = r.oid →
            (backendAdd now c r).2 = [] ∧
            (backendAdd now c r).1 = c.setRing r.rtype
              (ns.set i { ns.getD i dnode with lastUpdate := now })) ∧
          ((ns.getD i dnode).elem.oid ≠ r.oid →
            (backendAdd now c r).2 = [Event.changed r] ∧
            (backendAdd now c r).1 = c.setRing r.rtype
              (ns.set i
                { hashkey := (ns.getD i dnode).hashkey, elem := r,
                  lastUpdate := now }))))) := by
  constructor
  · intro hnone
    unfold backendAdd
    rw [hnone]
  · intro ns hring hwf
    have hBA : backendAdd now c r = (c.setRing r.rtype (ringAddOrUpdate now r ns),
        match getIndexFound ns r.uid with
        | some i => if (ns.getD i dnode).elem.oid ≠ r.oid then [Event.changed r] else []
        | none => [Event.isNew r]) := by
      unfold backendAdd
      rw [hring]
    constructor
    · intro hnm
      have hnone : getIndexFound ns r.uid = none :=
        (getIndexFound_none_iff_not_uidMem ns r.uid hwf.1).mpr hnm
      have hAdd : ringAddOrUpdate now r ns = keyInsertSorted (mkNode now r) ns := by
        unfold ringAddOrUpdate
        rw [hnone]
      rw [hBA, hnone, hAdd]
      refine ⟨rfl, keyInsertSorted (mkNode now r) ns, rfl, ?_, keyInsertSorted_perm _ _⟩
      apply keyInsertSorted_sorted _ _ hwf.1
      intro m hm hkeq
      exact hnm ⟨m, hm, hkeq.symm⟩
    · intro i hi hkey
      have hfound : getIndexFound ns r.uid = some i :=
        getIndexFound_of_key ns r.uid hwf.1 hi hkey
      constructor
      · intro hoid
        have hAdd : ringAddOrUpdate now r ns
            = ns.set i { ns.getD i dnode with lastUpdate := now } := by
          unfold ringAddOrUpdate
          rw [hfound]
          show (if (ns.getD i dnode).elem.oid ≠ r.oid then
                (refreshAt now i ns).set i { (refreshAt now i ns).getD i dnode with elem := r }
              else refreshAt now i ns) = _
          rw [if_neg (not_not.mpr hoid)]
          rfl
        rw [hBA, hfound, hAdd]
        refine ⟨?_, rfl⟩
        show (if (ns.getD i dnode).elem.oid ≠ r.oid then [Event.changed r] else []) = []
        rw [if_neg (not_not.mpr hoid)]
      · intro hoid
        have hset : (refreshAt now i ns).getD i dnode
            = { ns.getD i dnode with lastUpdate := now } := by
          unfold refreshAt
          exact getD_set_self ns i _ hi
        have hAdd : ringAddOrUpdate now r ns
            = ns.set i
                { hashkey := (ns.getD i dnode).hashkey, elem := r, lastUpdate := now } := by
          unfold ringAddOrUpdate
          rw [hfound]
          show (if (ns.getD i dnode).elem.oid ≠ r.oid then
                (refreshAt now i ns).set i { (refreshAt now i ns).getD i dnode with elem := r }
              else refreshAt now i ns) = _
          rw [if_pos hoid, hset]
          unfold refreshAt
          rw [List.set_set]
        rw [hBA, hfound, hAdd]
        refine ⟨?_, rfl⟩
        show (if (ns.getD i dnode).elem.oid ≠ r.oid then [Event.changed r] else []) = _
        rw [if_pos hoid]

/-- Witness for C1: the unknown-type case at an empty collection, and
the new-resource event at a one-node ring. -/
theorem backendAdd_spec_witness :
    backendAdd 0 ⟨[]⟩ (mkRes 1 1) = (⟨[]⟩, []) ∧
    (backendAdd 0 ⟨[("x", [nodeA])]⟩ (mkRes 2 5)).2 = [Event.isNew (mkRes 2 5)] := by
  constructor
  · exact (backendAdd_spec 0 ⟨[]⟩ (mkRes 1 1)).1 rfl
  · have hwf : RingWF [nodeA] := by
      constructor
      · simp [RingSorted]
      · intro n hn
        rcases List.mem_singleton.mp hn with rfl
        rfl
    have h := (((backendAdd_spec 0 ⟨[("x", [nodeA])]⟩ (mkRes 2 5)).2 [nodeA] rfl hwf).1
      (by rintro ⟨n, hn, hk⟩; rcases List.mem_singleton.mp hn with rfl; exact absurd hk (by decide))).1
    exact h

/-! ## C4: `Hashring.GetMany` -/

/-- The index `getIndex` hands to `GetMany` is the closest-ceiling
index. -/
theorem wrapIdx_ceil (ns : List Hashnode) (k : Nat) (h : ns.length ≠ 0) :
    CeilIdx ns k (wrapIdx ns k) := by
  refine ⟨wrapIdx_lt ns k h, ?_⟩
  unfold wrapIdx
  by_cases hge : searchGe k ns ≥ ns.length
  · rw [if_pos hge]
    exact Or.inr ⟨rfl, fun j hj => searchGe_before_lt k ns j (by omega)⟩
  · rw [if_neg hge]
    exact Or.inl ⟨searchGe_key_ge k ns (by omega), fun j hj => searchGe_before_lt k ns j hj⟩

/-- C4 counterexample: a one-element ring whose element is not
functional.  `GetMany(0, 1)` does not error (1 ≤ length) but returns the
empty list — not the "exactly one element" the claim asserts — because
the skip over a non-functional entry shrinks the result instead of
extending the window. -/
theorem ringGetMany_skips_shrink_result :
    ¬ (1 > dysfRing.length) ∧ ringGetMany dysfRing 0 1 = some [] ∧
    ∀ l : List Resource, ringGetMany dysfRing 0 1 = some l → l.length ≠ 1 := by
  refine ⟨by decide, rfl, ?_⟩
  intro l hl
  rw [show ringGetMany dysfRing 0 1 = some [] from rfl] at hl
  cases hl
  decide

/-- C4 (amended): `GetMany(k, n)` with `n > length` errors with no
partial result, and with an empty ring errors; otherwise it returns, in
ring order, the functional elements among the `n` consecutive window
positions starting at the closest-ceiling index for `k` (wrapping around
the ring) — which is exactly `n` pairwise-distinct elements when every
ring element is functional. -/
theorem ringGetMany_spec (ns : List Hashnode) (k num : Nat) (hwf : RingWF ns) :
    (num > ns.length → ringGetMany ns k num = none) ∧
    (ns.length = 0 → ringGetMany ns k num = none) ∧
    (num ≤ ns.length → 0 < ns.length →
      ∃ i, CeilIdx ns k i ∧
        ringGetMany ns k num
          = some ((ringWindow ns i num).filter (fun r => decide (r.state = StateFunctional))) ∧
        ((∀ n ∈ ns, n.elem.state = StateFunctional) →
          ringGetMany ns k num = some (ringWindow ns i num) ∧
          (ringWindow ns i num).length = num ∧
          ((ringWindow ns i num).map (fun r => r.uid)).Nodup)) := by
  refine ⟨?_, ?_, ?_⟩
  · intro hgt
    unfold ringGetMany
    rw [if_pos hgt]
  · intro h0
    unfold ringGetMany getIndexRaw
    by_cases hgt : num > ns.length
    · rw [if_pos hgt]
    · rw [if_neg hgt, if_pos h0]
  · intro hle hpos
    refine ⟨wrapIdx ns k, wrapIdx_ceil ns k (by omega), ?_, ?_⟩
    · unfold ringGetMany getIndexRaw ringWindow
      rw [if_neg (by omega), if_neg (by omega)]
    · intro hfun
      have hwin : ∀ r ∈ ringWindow ns (wrapIdx ns k) num, r ∈ ns.map (fun n => n.elem) := by
        intro r hr
        unfold ringWindow at hr
        obtain ⟨j, _, hj⟩ := List.mem_map.mp hr
        have hidx : (wrapIdx ns k + j) % ns.length < ns.length := Nat.mod_lt _ hpos
        rw [← hj, List.getD_eq_getElem _ _ hidx]
        exact List.mem_map.mpr ⟨_, List.getElem_mem hidx, rfl⟩
      refine ⟨?_, ?_, ?_⟩
      · unfold ringGetMany getIndexRaw
        rw [if_neg (by omega), if_neg (by omega)]
        show some ((ringWindow ns (wrapIdx ns k) num).filter
            (fun r => decide (r.state = StateFunctional))) = _
        rw [List.filter_eq_self.mpr]
        intro r hr
        obtain ⟨n, hn, hne⟩ := List.mem_map.mp (hwin r hr)
        rw [← hne]
        exact decide_eq_true (hfun n hn)
      · unfold ringWindow
        simp
      · -- positions are distinct, keys are strictly sorted, keys are uids
        unfold ringWindow
        rw [List.map_map]
        apply List.Nodup.map_on ?_ (List.nodup_range num)
        intro j1 hj1 j2 hj2 heq
        rw [List.mem_range] at hj1 hj2
        by_contra hne
        -- distinct window offsets give distinct ring indices
        have hidx1 : (wrapIdx ns k + j1) % ns.length < ns.length := Nat.mod_lt _ hpos
        have hidx2 : (wrapIdx ns k + j2) % ns.length < ns.length := Nat.mod_lt _ hpos
        have hii : (wrapIdx ns k + j1) % ns.length ≠ (wrapIdx ns k + j2) % ns.length := by
          intro hmod
          rcases Nat.le_total j1 j2 with hle12 | hle21
          · have hmq : Nat.ModEq ns.length (wrapIdx ns k + j1) (wrapIdx ns k + j2) := hmod
            have hdvd : ns.length ∣ (wrapIdx ns k + j2) - (wrapIdx ns k + j1) :=
              (Nat.modEq_iff_dvd' (by omega)).mp hmq
            have : (wrapIdx ns k + j2) - (wrapIdx ns k + j1) = j2 - j1 := by omega
            rw [this] at hdvd
            have := Nat.eq_zero_of_dvd_of_lt hdvd (by omega)
            · omega
          · have hmq : Nat.ModEq ns.length (wrapIdx ns k + j2) (wrapIdx ns k + j1) := hmod.symm
            have hdvd : ns.length ∣ (wrapIdx ns k + j1) - (wrapIdx ns k + j2) :=
              (Nat.modEq_iff_dvd' (by omega)).mp hmq
            have : (wrapIdx ns k + j1) - (wrapIdx ns k + j2) = j1 - j2 := by omega
            rw [this] at hdvd
            have := Nat.eq_zero_of_dvd_of_lt hdvd (by omega)
            · omega
        -- keys at distinct indices differ, and keys are element uids
        have hkeyne : (ns.getD ((wrapIdx ns k + j1) % ns.length) dnode).hashkey
            ≠ (ns.getD ((wrapIdx ns k + j2) % ns.length) dnode).hashkey := by
          rcases Nat.lt_or_ge ((wrapIdx ns k + j1) % ns.length)
              ((wrapIdx ns k + j2) % ns.length) with hlt | hge
          · exact Nat.ne_of_lt (ringSorted_get_lt ns hwf.1 hlt hidx2)
          · have hlt : (wrapIdx ns k + j2) % ns.length
                < (wrapIdx ns k + j1) % ns.length := by omega
            exact (Nat.ne_of_lt (ringSorted_get_lt ns hwf.1 hlt hidx1)).symm
        have hk1 : (ns.getD ((wrapIdx ns k + j1) % ns.length) dnode).hashkey
            = (ns.getD ((wrapIdx ns k + j1) % ns.length) dnode).elem.uid := by
          apply hwf.2
          rw [List.getD_eq_getElem _ _ hidx1]
          exact List.getElem_mem hidx1
        have hk2 : (ns.getD ((wrapIdx ns k + j2) % ns.length) dnode).hashkey
            = (ns.getD ((wrapIdx ns k + j2) % ns.length) dnode).elem.uid := by
          apply hwf.2
          rw [List.getD_eq_getElem _ _ hidx2]
          exact List.getElem_mem hidx2
        apply hkeyne
        rw [hk1, hk2]
        exact heq

/-- Witness for C4's amended theorem: a singleton ring errors on a
request for two elements, and returns its (functional) single element on
a request for one. -/
theorem ringGetMany_spec_witness :
    ringGetMany [nodeA] 5 2 = none ∧ ringGetMany [nodeA] 0 1 = some [mkRes 1 10] := by
  have hwf : RingWF [nodeA] := by
    constructor
    · simp [RingSorted]
    · intro n hn
      rcases List.mem_singleton.mp hn with rfl
      rfl
  constructor
  · exact (ringGetMany_spec [nodeA] 5 2 hwf).1 (by decide)
  · obtain ⟨i, hci, heq, hall⟩ := (ringGetMany_spec [nodeA] 0 1 hwf).2.2 (by decide) (by decide)
    have hi0 : i = 0 := by
      have := hci.1
      simp at this
      omega
    subst hi0
    have h := (hall (by decide)).1
    rw [h]
    rfl

/-! ## C3 groundwork: uniqueness, decomposition and operation effects -/

/-- In a sorted ring, two members with the same key are the same node. -/
theorem ringSorted_mem_key_inj {ns : List Hashnode} (hs : RingSorted ns)
    {m1 m2 : Hashnode} (h1 : m1 ∈ ns) (h2 : m2 ∈ ns)
    (hk : m1.hashkey = m2.hashkey) : m1 = m2 := by
  obtain ⟨i1, hi1, he1⟩ := List.mem_iff_getElem.mp h1
  obtain ⟨i2, hi2, he2⟩ := List.mem_iff_getElem.mp h2
  rcases Nat.lt_trichotomy i1 i2 with hlt | heq | hgt
  · have := ringSorted_get_lt ns hs hlt hi2
    rw [List.getD_eq_getElem _ _ (lt_trans hlt hi2), List.getD_eq_getElem _ _ hi2,
      he1, he2, hk] at this
    omega
  · subst heq
    rw [← he1, ← he2]
  · have := ringSorted_get_lt ns hs hgt hi1
    rw [List.getD_eq_getElem _ _ (lt_trans hgt hi1), List.getD_eq_getElem _ _ hi1,
      he1, he2, hk] at this
    omega

/-- A ring stores at most one object id per unique id. -/
theorem hasPair_unique {ns : List Hashnode} (hwf : RingWF ns) {u o1 o2 : Nat}
    (h1 : hasPair ns u o1) (h2 : hasPair ns u o2) : o1 = o2 := by
  obtain ⟨n1, hn1, hu1, ho1⟩ := h1
  obtain ⟨n2, hn2, hu2, ho2⟩ := h2
  have hk : n1.hashkey = n2.hashkey := by
    rw [hwf.2 n1 hn1, hwf.2 n2 hn2, hu1, hu2]
  rw [← ho1, ← ho2, ringSorted_mem_key_inj hwf.1 hn1 hn2 hk]

/-- A stored pair witnesses key membership. -/
theorem uidMem_of_hasPair {ns : List Hashnode} (hwf : RingWF ns) {u o : Nat}
    (h : hasPair ns u o) : uidMem ns u := by
  obtain ⟨n, hn, hu, _⟩ := h
  exact ⟨n, hn, by rw [hwf.2 n hn, hu]⟩

/-- Splitting a ring around a found index: the prefix keys are below the
searched key, the suffix keys above. -/
theorem ring_found_decomp {ns : List Hashnode} (hwf : RingWF ns) {k : Nat} {i : Nat}
    (hfound : getIndexFound ns k = some i) :
    ns = ns.take i ++ ns.getD i dnode :: ns.drop (i + 1) ∧
    (ns.take i).length = i ∧
    (ns.getD i dnode).hashkey = k ∧
    (∀ x ∈ ns.take i, x.hashkey < k) ∧
    (∀ x ∈ ns.drop (i + 1), k < x.hashkey) := by
  obtain ⟨hi, hkey⟩ := getIndexFound_spec ns k hfound
  have hdecomp : ns = ns.take i ++ ns.getD i dnode :: ns.drop (i + 1) := by
    conv_lhs => rw [← List.take_append_drop i ns]
    rw [List.drop_eq_getElem_cons hi, List.getD_eq_getElem _ _ hi]
  have hlen : (ns.take i).length = i := by
    rw [List.length_take]
    omega
  have hsorted := hwf.1
  rw [hdecomp] at hsorted
  rcases List.pairwise_append.mp hsorted with ⟨_, hmid, hcross⟩
  rcases List.pairwise_cons.mp hmid with ⟨hafter, _⟩
  refine ⟨hdecomp, hlen, hkey, ?_, ?_⟩
  · intro x hx
    have := hcross x hx (ns.getD i dnode) (List.mem_cons_self _ _)
    omega
  · intro x hx
    have := hafter x hx
    omega

/-- Replacing the node at a found index with a node of the same key:
well-formedness is preserved and the ring's pairs change only at that
key. -/
theorem set_found_effect {ns : List Hashnode} (hwf : RingWF ns) {k i : Nat}
    (hfound : getIndexFound ns k = some i) (v : Hashnode)
    (hvkey : v.hashkey = k) (hvuid : v.hashkey = v.elem.uid) :
    RingWF (ns.set i v) ∧
    (∀ u, uidMem (ns.set i v) u ↔ uidMem ns u) ∧
    (∀ u o, hasPair (ns.set i v) u o ↔
      ((u = v.elem.uid ∧ o = v.elem.oid) ∨ (u ≠ v.elem.uid ∧ hasPair ns u o))) := by
  obtain ⟨hdecomp, hlen, hkey, hbelow, habove⟩ := ring_found_decomp hwf hfound
  have hi : i < ns.length := (getIndexFound_spec ns k hfound).1
  have hset : ns.set i v = ns.take i ++ v :: ns.drop (i + 1) :=
    List.set_eq_take_cons_drop v hi
  have hmem_old : ∀ x ∈ ns.take i, x ∈ ns := fun x hx => List.mem_of_mem_take hx
  have hmem_old2 : ∀ x ∈ ns.drop (i + 1), x ∈ ns := fun x hx => List.mem_of_mem_drop hx
  have hvu : v.elem.uid = k := by rw [← hvuid, hvkey]
  have hmem_mid : ns.getD i dnode ∈ ns := by
    rw [List.getD_eq_getElem _ _ hi]
    exact List.getElem_mem hi
  have hmid := hwf.2 _ hmem_mid
  refine ⟨⟨?_, ?_⟩, ?_, ?_⟩
  · -- sortedness of the replaced ring
    rw [hset]
    have hsorted := hwf.1
    rw [hdecomp] at hsorted
    rcases List.pairwise_append.mp hsorted with ⟨hpre, hmid', hcross⟩
    rcases List.pairwise_cons.mp hmid' with ⟨hafter, hsuf⟩
    refine List.pairwise_append.mpr ⟨hpre, ?_, ?_⟩
    · refine List.pairwise_cons.mpr ⟨?_, hsuf⟩
      intro b hb
      rw [hvkey]
      exact habove b hb
    · intro a ha b hb
      rcases List.mem_cons.mp hb with rfl | hb
      · rw [hvkey]
        exact hbelow a ha
      · exact hcross a ha b (List.mem_cons_of_mem _ hb)
  · -- keys still match uids
    intro n hn
    rw [hset] at hn
    rcases List.mem_append.mp hn with hn | hn
    · exact hwf.2 n (hmem_old n hn)
    · rcases List.mem_cons.mp hn with rfl | hn
      · exact hvuid
      · exact hwf.2 n (hmem_old2 n hn)
  · -- key membership is unchanged
    intro u
    unfold uidMem
    rw [hset]
    conv_rhs => rw [hdecomp]
    simp only [List.mem_append, List.mem_cons]
    constructor
    · rintro ⟨n, hn, hk⟩
      rcases hn with hn | rfl | hn
      · exact ⟨n, Or.inl hn, hk⟩
      · exact ⟨ns.getD i dnode, Or.inr (Or.inl rfl), by rw [hkey, ← hvkey, hk]⟩
      · exact ⟨n, Or.inr (Or.inr hn), hk⟩
    · rintro ⟨n, hn, hk⟩
      rcases hn with hn | rfl | hn
      · exact ⟨n, Or.inl hn, hk⟩
      · exact ⟨v, Or.inr (Or.inl rfl), by rw [hvkey, ← hkey, hk]⟩
      · exact ⟨n, Or.inr (Or.inr hn), hk⟩
  · -- pairs change only at the replaced key
    intro u o
    unfold hasPair
    rw [hset]
    conv_rhs => rw [hdecomp]
    simp only [List.mem_append, List.mem_cons]
    constructor
    · rintro ⟨n, hn, hu, ho⟩
      rcases hn with hn | rfl | hn
      · refine Or.inr ⟨?_, n, Or.inl hn, hu, ho⟩
        have := hbelow n hn
        rw [hwf.2 n (hmem_old n hn), hu] at this
        omega
      · exact Or.inl ⟨hu.symm, ho.symm⟩
      · refine Or.inr ⟨?_, n, Or.inr (Or.inr hn), hu, ho⟩
        have := habove n hn
        rw [hwf.2 n (hmem_old2 n hn), hu] at this
        omega
    · rintro (⟨hu, ho⟩ | ⟨hne, n, hn, hu, ho⟩)
      · exact ⟨v, Or.inr (Or.inl rfl), hu.symm, ho.symm⟩
      · rcases hn with hn | rfl | hn
        · exact ⟨n, Or.inl hn, hu, ho⟩
        · exact absurd (by rw [← hu, ← hmid, hkey, ← hvu]) hne
        · exact ⟨n, Or.inr (Or.inr hn), hu, ho⟩

/-- Inserting a node for a resource whose unique id is absent. -/
theorem insert_effect (now : Int) (r : Resource) (ns : List Hashnode) (hwf : RingWF ns)
    (hnm : ¬ uidMem ns r.uid) :
    RingWF (keyInsertSorted (mkNode now r) ns) ∧
    (∀ u, uidMem (keyInsertSorted (mkNode now r) ns) u ↔ (uidMem ns u ∨ u = r.uid)) ∧
    (∀ u o, hasPair (keyInsertSorted (mkNode now r) ns) u o ↔
      (hasPair ns u o ∨ (u = r.uid ∧ o = r.oid))) := by
  have hne : ∀ m ∈ ns, (mkNode now r).hashkey ≠ m.hashkey := by
    intro m hm hkeq
    exact hnm ⟨m, hm, hkeq.symm⟩
  refine ⟨⟨keyInsertSorted_sorted _ _ hwf.1 hne, ?_⟩, ?_, ?_⟩
  · intro n hn
    rcases keyInsertSorted_mem.mp hn with rfl | hn
    · rfl
    · exact hwf.2 n hn
  · intro u
    unfold uidMem
    constructor
    · rintro ⟨n, hn, hk⟩
      rcases keyInsertSorted_mem.mp hn with rfl | hn
      · exact Or.inr hk.symm
      · exact Or.inl ⟨n, hn, hk⟩
    · rintro (⟨n, hn, hk⟩ | rfl)
      · exact ⟨n, keyInsertSorted_mem.mpr (Or.inr hn), hk⟩
      · exact ⟨mkNode now r, keyInsertSorted_mem.mpr (Or.inl rfl), rfl⟩
  · intro u o
    unfold hasPair
    constructor
    · rintro ⟨n, hn, hu, ho⟩
      rcases keyInsertSorted_mem.mp hn with rfl | hn
      · exact Or.inr ⟨hu.symm, ho.symm⟩
      · exact Or.inl ⟨n, hn, hu, ho⟩
    · rintro (⟨n, hn, hu, ho⟩ | ⟨rfl, rfl⟩)
      · exact ⟨n, keyInsertSorted_mem.mpr (Or.inr hn), hu, ho⟩
      · exact ⟨mkNode now r, keyInsertSorted_mem.mpr (Or.inl rfl), rfl, rfl⟩

/-- Unfolding `AddOrUpdate` in its three branches. -/
theorem ringAddOrUpdate_not_found (now : Int) (r : Resource) (ns : List Hashnode)
    (hnone : getIndexFound ns r.uid = none) :
    ringAddOrUpdate now r ns = keyInsertSorted (mkNode now r) ns := by
  unfold ringAddOrUpdate
  rw [hnone]

theorem ringAddOrUpdate_found_same (now : Int) (r : Resource) (ns : List Hashnode)
    {i : Nat} (hfound : getIndexFound ns r.uid = some i)
    (hoid : (ns.getD i dnode).elem.oid = r.oid) :
    ringAddOrUpdate now r ns = ns.set i { ns.getD i dnode with lastUpdate := now } := by
  unfold ringAddOrUpdate
  rw [hfound]
  show (if (ns.getD i dnode).elem.oid ≠ r.oid then
        (refreshAt now i ns).set i { (refreshAt now i ns).getD i dnode with elem := r }
      else refreshAt now i ns) = _
  rw [if_neg (not_not.mpr hoid)]
  rfl

theorem ringAddOrUpdate_found_diff (now : Int) (r : Resource) (ns : List Hashnode)
    {i : Nat} (hfound : getIndexFound ns r.uid = some i)
    (hoid : (ns.getD i dnode).elem.oid ≠ r.oid) :
    ringAddOrUpdate now r ns
      = ns.set i { hashkey := (ns.getD i dnode).hashkey, elem := r, lastUpdate := now } := by
  have hi : i < ns.length := (getIndexFound_spec ns r.uid hfound).1
  have hset : (refreshAt now i ns).getD i dnode
      = { ns.getD i dnode with lastUpdate := now } := by
    unfold refreshAt
    exact getD_set_self ns i _ hi
  unfold ringAddOrUpdate
  rw [hfound]
  show (if (ns.getD i dnode).elem.oid ≠ r.oid then
        (refreshAt now i ns).set i { (refreshAt now i ns).getD i dnode with elem := r }
      else refreshAt now i ns) = _
  rw [if_pos hoid, hset]
  unfold refreshAt
  rw [List.set_set]

/-- The effect of `AddOrUpdate` on a well-formed ring: the pair at the
resource's unique id becomes `(uid, oid)` and every other pair is
untouched. -/
theorem ringAddOrUpdate_effect (now : Int) (r : Resource) (ns : List Hashnode)
    (hwf : RingWF ns) :
    RingWF (ringAddOrUpdate now r ns) ∧
    (∀ u, uidMem (ringAddOrUpdate now r ns) u ↔ (uidMem ns u ∨ u = r.uid)) ∧
    (∀ u o, hasPair (ringAddOrUpdate now r ns) u o ↔
      ((u = r.uid ∧ o = r.oid) ∨ (u ≠ r.uid ∧ hasPair ns u o))) := by
  cases hfound : getIndexFound ns r.uid with
  | none =>
    have hnm : ¬ uidMem ns r.uid := (getIndexFound_none_iff_not_uidMem ns r.uid hwf.1).mp hfound
    rw [ringAddOrUpdate_not_found now r ns hfound]
    obtain ⟨hwf', hmem, hpair⟩ := insert_effect now r ns hwf hnm
    refine ⟨hwf', hmem, ?_⟩
    intro u o
    rw [hpair u o]
    by_cases hu : u = r.uid
    · subst hu
      constructor
      · rintro (hp | ⟨-, rfl⟩)
        · exact absurd (uidMem_of_hasPair hwf hp) hnm
        · exact Or.inl ⟨rfl, rfl⟩
      · rintro (⟨-, rfl⟩ | ⟨hne, -⟩)
        · exact Or.inr ⟨rfl, rfl⟩
        · exact absurd rfl hne
    · constructor
      · rintro (hp | ⟨rfl, -⟩)
        · exact Or.inr ⟨hu, hp⟩
        · exact absurd rfl hu
      · rintro (⟨rfl, -⟩ | ⟨-, hp⟩)
        · exact absurd rfl hu
        · exact Or.inl hp
  | some i =>
    have hspec := getIndexFound_spec ns r.uid hfound
    have hmem_mid : ns.getD i dnode ∈ ns := by
      rw [List.getD_eq_getElem _ _ hspec.1]
      exact List.getElem_mem hspec.1
    have hmiduid : (ns.getD i dnode).elem.uid = r.uid := by
      rw [← hwf.2 _ hmem_mid, hspec.2]
    have hpresent : uidMem ns r.uid := ⟨ns.getD i dnode, hmem_mid, hspec.2⟩
    by_cases hoid : (ns.getD i dnode).elem.oid = r.oid
    · rw [ringAddOrUpdate_found_same now r ns hfound hoid]
      obtain ⟨hwf', hmem, hpair⟩ := set_found_effect hwf hfound
        { ns.getD i dnode with lastUpdate := now } hspec.2
        (by exact hwf.2 (ns.getD i dnode) hmem_mid)
      refine ⟨hwf', ?_, ?_⟩
      · intro u
        rw [hmem u]
        constructor
        · exact Or.inl
        · rintro (h | rfl)
          · exact h
          · exact hpresent
      · intro u o
        rw [hpair u o]
        show ((u = (ns.getD i dnode).elem.uid ∧ o = (ns.getD i dnode).elem.oid) ∨ _) ↔ _
        rw [hmiduid, hoid]
    · rw [ringAddOrUpdate_found_diff now r ns hfound hoid]
      obtain ⟨hwf', hmem, hpair⟩ := set_found_effect hwf hfound
        { hashkey := (ns.getD i dnode).hashkey, elem := r, lastUpdate := now }
        hspec.2 hspec.2
      refine ⟨hwf', ?_, ?_⟩
      · intro u
        rw [hmem u]
        constructor
        · exact Or.inl
        · rintro (h | rfl)
          · exact h
          · exact hpresent
      · intro u o
        exact hpair u o

/-- `Remove` deletes exactly the pair at the resource's unique id. -/
theorem erase_found_effect {ns : List Hashnode} (hwf : RingWF ns) {k i : Nat}
    (hfound : getIndexFound ns k = some i) :
    RingWF (ns.eraseIdx i) ∧
    (∀ u, uidMem (ns.eraseIdx i) u ↔ (uidMem ns u ∧ u ≠ k)) ∧
    (∀ u o, hasPair (ns.eraseIdx i) u o ↔ (hasPair ns u o ∧ u ≠ k)) := by
  obtain ⟨hdecomp, hlen, hkey, hbelow, habove⟩ := ring_found_decomp hwf hfound
  have hi : i < ns.length := (getIndexFound_spec ns k hfound).1
  have herase : ns.eraseIdx i = ns.take i ++ ns.drop (i + 1) :=
    List.eraseIdx_eq_take_drop_succ ns i
  have hmem_old : ∀ x ∈ ns.take i, x ∈ ns := fun x hx => List.mem_of_mem_take hx
  have hmem_old2 : ∀ x ∈ ns.drop (i + 1), x ∈ ns := fun x hx => List.mem_of_mem_drop hx
  have hmem_mid : ns.getD i dnode ∈ ns := by
    rw [List.getD_eq_getElem _ _ hi]
    exact List.getElem_mem hi
  have hsub : (ns.take i ++ ns.drop (i + 1)).Sublist ns := by
    conv_rhs => rw [hdecomp]
    exact List.Sublist.append_left (List.sublist_cons_self _ _) _
  refine ⟨⟨?_, ?_⟩, ?_, ?_⟩
  · rw [herase]
    exact List.Pairwise.sublist hsub hwf.1
  · intro n hn
    rw [herase] at hn
    exact hwf.2 n (List.Sublist.mem hn hsub)
  · intro u
    unfold uidMem
    rw [herase]
    constructor
    · rintro ⟨n, hn, hk⟩
      rcases List.mem_append.mp hn with hn | hn
      · refine ⟨⟨n, hmem_old n hn, hk⟩, ?_⟩
        have := hbelow n hn
        omega
      · refine ⟨⟨n, hmem_old2 n hn, hk⟩, ?_⟩
        have := habove n hn
        omega
    · rintro ⟨⟨n, hn, hk⟩, hne⟩
      rw [hdecomp] at hn
      rcases List.mem_append.mp hn with hn | hn
      · exact ⟨n, List.mem_append.mpr (Or.inl hn), hk⟩
      · rcases List.mem_cons.mp hn with rfl | hn
        · exact absurd (by rw [← hk, hkey]) hne
        · exact ⟨n, List.mem_append.mpr (Or.inr hn), hk⟩
  · intro u o
    unfold hasPair
    rw [herase]
    constructor
    · rintro ⟨n, hn, hu, ho⟩
      rcases List.mem_append.mp hn with hn | hn
      · refine ⟨⟨n, hmem_old n hn, hu, ho⟩, ?_⟩
        have h1 := hbelow n hn
        rw [hwf.2 n (hmem_old n hn), hu] at h1
        omega
      · refine ⟨⟨n, hmem_old2 n hn, hu, ho⟩, ?_⟩
        have h1 := habove n hn
        rw [hwf.2 n (hmem_old2 n hn), hu] at h1
        omega
    · rintro ⟨⟨n, hn, hu, ho⟩, hne⟩
      rw [hdecomp] at hn
      rcases List.mem_append.mp hn with hn | hn
      · exact ⟨n, List.mem_append.mpr (Or.inl hn), hu, ho⟩
      · rcases List.mem_cons.mp hn with rfl | hn
        · refine absurd ?_ hne
          rw [← hu, ← hwf.2 _ hmem_mid, hkey]
        · exact ⟨n, List.mem_append.mpr (Or.inr hn), hu, ho⟩

/-- The effect of `Remove` on a well-formed ring (including the
not-found no-op case). -/
theorem ringRemove_effect (r : Resource) (ns : List Hashnode) (hwf : RingWF ns) :
    RingWF (ringRemove r ns).1 ∧
    (∀ u, uidMem (ringRemove r ns).1 u ↔ (uidMem ns u ∧ u ≠ r.uid)) ∧
    (∀ u o, hasPair (ringRemove r ns).1 u o ↔ (hasPair ns u o ∧ u ≠ r.uid)) := by
  cases hfound : getIndexFound ns r.uid with
  | none =>
    have hnm : ¬ uidMem ns r.uid := (getIndexFound_none_iff_not_uidMem ns r.uid hwf.1).mp hfound
    have hres : (ringRemove r ns).1 = ns := by
      unfold ringRemove
      rw [hfound]
    rw [hres]
    refine ⟨hwf, ?_, ?_⟩
    · intro u
      constructor
      · intro h
        refine ⟨h, ?_⟩
        rintro rfl
        exact hnm h
      · exact And.left
    · intro u o
      constructor
      · intro h
        refine ⟨h, ?_⟩
        rintro rfl
        exact hnm (uidMem_of_hasPair hwf h)
      · exact And.left
  | some i =>
    have hres : (ringRemove r ns).1 = ns.eraseIdx i := by
      unfold ringRemove
      rw [hfound]
    rw [hres]
    exact erase_found_effect hwf hfound

/-- `Add` of a resource with an absent unique id inserts its pair. -/
theorem ringAdd_effect_absent (now : Int) (r : Resource) (ns : List Hashnode)
    (hwf : RingWF ns) (hnm : ¬ uidMem ns r.uid) :
    RingWF (ringAdd now r ns).1 ∧
    (∀ u, uidMem (ringAdd now r ns).1 u ↔ (uidMem ns u ∨ u = r.uid)) ∧
    (∀ u o, hasPair (ringAdd now r ns).1 u o ↔
      (hasPair ns u o ∨ (u = r.uid ∧ o = r.oid))) := by
  have hnone : getIndexFound ns r.uid = none :=
    (getIndexFound_none_iff_not_uidMem ns r.uid hwf.1).mpr hnm
  have hres : (ringAdd now r ns).1 = keyInsertSorted (mkNode now r) ns := by
    unfold ringAdd
    rw [hnone]
  rw [hres]
  exact insert_effect now r ns hwf hnm

/-- The `new` phase of `ApplyDiff`: adding resources with fresh,
pairwise-distinct unique ids adjoins exactly their pairs. -/
theorem foldAdd_effect (now : Int) (rs : List Resource) :
    ∀ ns : List Hashnode, RingWF ns → (∀ r ∈ rs, ¬ uidMem ns r.uid) →
    (rs.map (fun r => r.uid)).Nodup →
    RingWF (rs.foldl (fun acc r => (ringAdd now r acc).1) ns) ∧
    (∀ u, uidMem (rs.foldl (fun acc r => (ringAdd now r acc).1) ns) u ↔
      (uidMem ns u ∨ ∃ r ∈ rs, r.uid = u)) ∧
    (∀ u o, hasPair (rs.foldl (fun acc r => (ringAdd now r acc).1) ns) u o ↔
      (hasPair ns u o ∨ ∃ r ∈ rs, r.uid = u ∧ r.oid = o)) := by
  induction rs with
  | nil =>
    intro ns hwf _ _
    simp [hwf]
  | cons r rs ih =>
    intro ns hwf habs hnd
    rw [List.map_cons, List.nodup_cons] at hnd
    obtain ⟨hstep_wf, hstep_mem, hstep_pair⟩ :=
      ringAdd_effect_absent now r ns hwf (habs r (List.mem_cons_self r rs))
    have habs' : ∀ r' ∈ rs, ¬ uidMem (ringAdd now r ns).1 r'.uid := by
      intro r' hr' hmem
      rcases (hstep_mem r'.uid).mp hmem with h | h
      · exact habs r' (List.mem_cons_of_mem r hr') h
      · exact hnd.1 (List.mem_map.mpr ⟨r', hr', h⟩)
    obtain ⟨hwf', hmem', hpair'⟩ := ih (ringAdd now r ns).1 hstep_wf habs' hnd.2
    refine ⟨hwf', ?_, ?_⟩
    · intro u
      rw [List.foldl_cons] at *
      rw [hmem' u, hstep_mem u]
      simp only [List.mem_cons]
      constructor
      · rintro ((h | rfl) | ⟨r', hr', hu⟩)
        · exact Or.inl h
        · exact Or.inr ⟨r, Or.inl rfl, rfl⟩
        · exact Or.inr ⟨r', Or.inr hr', hu⟩
      · rintro (h | ⟨r', hr' | hr', hu⟩)
        · exact Or.inl (Or.inl h)
        · subst hr'
          exact Or.inl (Or.inr hu.symm)
        · exact Or.inr ⟨r', hr', hu⟩
    · intro u o
      rw [List.foldl_cons] at *
      rw [hpair' u o, hstep_pair u o]
      simp only [List.mem_cons]
      constructor
      · rintro ((h | ⟨rfl, rfl⟩) | ⟨r', hr', hu, ho⟩)
        · exact Or.inl h
        · exact Or.inr ⟨r, Or.inl rfl, rfl, rfl⟩
        · exact Or.inr ⟨r', Or.inr hr', hu, ho⟩
      · rintro (h | ⟨r', hr' | hr', hu, ho⟩)
        · exact Or.inl (Or.inl h)
        · subst hr'
          exact Or.inl (Or.inr ⟨hu.symm, ho.symm⟩)
        · exact Or.inr ⟨r', hr', hu, ho⟩

/-- The `changed` phase of `ApplyDiff`: updating resources with
pairwise-distinct unique ids overwrites exactly their pairs. -/
theorem foldAddOrUpdate_effect (now : Int) (rs : List Resource) :
    ∀ ns : List Hashnode, RingWF ns → (rs.map (fun r => r.uid)).Nodup →
    RingWF (rs.foldl (fun acc r => ringAddOrUpdate now r acc) ns) ∧
    (∀ u, uidMem (rs.foldl (fun acc r => ringAddOrUpdate now r acc) ns) u ↔
      (uidMem ns u ∨ ∃ r ∈ rs, r.uid = u)) ∧
    (∀ u o, hasPair (rs.foldl (fun acc r => ringAddOrUpdate now r acc) ns) u o ↔
      ((∃ r ∈ rs, r.uid = u ∧ r.oid = o) ∨
        ((¬ ∃ r ∈ rs, r.uid = u) ∧ hasPair ns u o))) := by
  induction rs with
  | nil =>
    intro ns hwf _
    simp [hwf]
  | cons r rs ih =>
    intro ns hwf hnd
    rw [List.map_cons, List.nodup_cons] at hnd
    obtain ⟨hstep_wf, hstep_mem, hstep_pair⟩ := ringAddOrUpdate_effect now r ns hwf
    obtain ⟨hwf', hmem', hpair'⟩ := ih (ringAddOrUpdate now r ns) hstep_wf hnd.2
    refine ⟨hwf', ?_, ?_⟩
    · intro u
      rw [List.foldl_cons] at *
      rw [hmem' u, hstep_mem u]
      simp only [List.mem_cons]
      constructor
      · rintro ((h | rfl) | ⟨r', hr', hu⟩)
        · exact Or.inl h
        · exact Or.inr ⟨r, Or.inl rfl, rfl⟩
        · exact Or.inr ⟨r', Or.inr hr', hu⟩
      · rintro (h | ⟨r', hr' | hr', hu⟩)
        · exact Or.inl (Or.inl h)
        · subst hr'
          exact Or.inl (Or.inr hu.symm)
        · exact Or.inr ⟨r', hr', hu⟩
    · intro u o
      rw [List.foldl_cons] at *
      rw [hpair' u o]
      have hru_tail : ∀ r' ∈ rs, r'.uid ≠ r.uid := by
        intro r' hr' hequ
        exact hnd.1 (List.mem_map.mpr ⟨r', hr', hequ⟩)
      by_cases hu : u = r.uid
      · subst hu
        have htail_none : ¬ ∃ r' ∈ rs, r'.uid = r.uid := by
          rintro ⟨r', hr', hequ⟩
          exact hru_tail r' hr' hequ
        constructor
        · rintro (⟨r', hr', hu, ho⟩ | ⟨-, hp⟩)
          · exact absurd (hru_tail r' hr') (not_not.mpr hu)
          · rcases (hstep_pair _ _).mp hp with ⟨-, rfl⟩ | ⟨hne, -⟩
            · exact Or.inl ⟨r, List.mem_cons_self r rs, rfl, rfl⟩
            · exact absurd rfl hne
        · rintro (⟨r', hr', hu, ho⟩ | ⟨hnone, -⟩)
          · rcases List.mem_cons.mp hr' with rfl | hr'
            · exact Or.inr ⟨htail_none, (hstep_pair _ _).mpr (Or.inl ⟨hu.symm, ho.symm⟩)⟩
            · exact absurd (hru_tail r' hr') (not_not.mpr hu)
          · exact absurd ⟨r, List.mem_cons_self r rs, rfl⟩ hnone
      · constructor
        · rintro (⟨r', hr', hu', ho⟩ | ⟨hnone, hp⟩)
          · exact Or.inl ⟨r', List.mem_cons_of_mem r hr', hu', ho⟩
          · rcases (hstep_pair _ _).mp hp with ⟨rfl, -⟩ | ⟨-, hp'⟩
            · exact absurd rfl hu
            · refine Or.inr ⟨?_, hp'⟩
              rintro ⟨r', hr', hu'⟩
              rcases List.mem_cons.mp hr' with rfl | hr'
              · exact hu hu'.symm
              · exact hnone ⟨r', hr', hu'⟩
        · rintro (⟨r', hr', hu', ho⟩ | ⟨hnone, hp⟩)
          · rcases List.mem_cons.mp hr' with rfl | hr'
            · exact absurd hu'.symm hu
            · exact Or.inl ⟨r', hr', hu', ho⟩
          · refine Or.inr ⟨?_, (hstep_pair _ _).mpr (Or.inr ⟨hu, hp⟩)⟩
            rintro ⟨r', hr', hu'⟩
            exact hnone ⟨r', List.mem_cons_of_mem r hr', hu'⟩

/-- The `gone` phase of `ApplyDiff`: removing resources deletes exactly
the pairs at their unique ids. -/
theorem foldRemove_effect (rs : List Resource) :
    ∀ ns : List Hashnode, RingWF ns →
    RingWF (rs.foldl (fun acc r => (ringRemove r acc).1) ns) ∧
    (∀ u, uidMem (rs.foldl (fun acc r => (ringRemove r acc).1) ns) u ↔
      (uidMem ns u ∧ ∀ r ∈ rs, u ≠ r.uid)) ∧
    (∀ u o, hasPair (rs.foldl (fun acc r => (ringRemove r acc).1) ns) u o ↔
      (hasPair ns u o ∧ ∀ r ∈ rs, u ≠ r.uid)) := by
  induction rs with
  | nil =>
    intro ns hwf
    simp [hwf]
  | cons r rs ih =>
    intro ns hwf
    obtain ⟨hstep_wf, hstep_mem, hstep_pair⟩ := ringRemove_effect r ns hwf
    obtain ⟨hwf', hmem', hpair'⟩ := ih (ringRemove r ns).1 hstep_wf
    refine ⟨hwf', ?_, ?_⟩
    · intro u
      rw [List.foldl_cons] at *
      rw [hmem' u, hstep_mem u]
      simp only [List.mem_cons]
      constructor
      · rintro ⟨⟨hm, hne⟩, hall⟩
        refine ⟨hm, ?_⟩
        rintro r' (rfl | hr')
        · exact hne
        · exact hall r' hr'
      · rintro ⟨hm, hall⟩
        exact ⟨⟨hm, hall r (Or.inl rfl)⟩, fun r' hr' => hall r' (Or.inr hr')⟩
    · intro u o
      rw [List.foldl_cons] at *
      rw [hpair' u o, hstep_pair u o]
      simp only [List.mem_cons]
      constructor
      · rintro ⟨⟨hp, hne⟩, hall⟩
        refine ⟨hp, ?_⟩
        rintro r' (rfl | hr')
        · exact hne
        · exact hall r' hr'
      · rintro ⟨hp, hall⟩
        exact ⟨⟨hp, hall r (Or.inl rfl)⟩, fun r' hr' => hall r' (Or.inr hr')⟩

/-- `Diff`'s three buckets, written as filters of the two rings: `new`
keeps the `h1` elements whose key lookup in `h2` fails, `changed` those
whose lookup succeeds with a different object id, and `gone` the `h2`
elements whose lookup in `h1` fails. -/
theorem ringDiff_eq (h1 h2 : List Hashnode) :
    ringDiff h1 h2 =
      ⟨(h1.filter (fun n => (getIndexFound h2 n.elem.uid).isNone)).map (fun n => n.elem),
        (h1.filter (fun n =>
          match getIndexFound h2 n.elem.uid with
          | some i => decide (n.elem.oid ≠ (h2.getD i dnode).elem.oid)
          | none => false)).map (fun n => n.elem),
        (h2.filter (fun m => (getIndexFound h1 m.elem.uid).isNone)).map (fun m => m.elem)⟩ := by
  have hnc : ∀ (l : List Hashnode) (acc : List Resource × List Resource),
      l.foldl
        (fun (acc : List Resource × List Resource) n =>
          match getIndexFound h2 n.elem.uid with
          | none => (acc.1 ++ [n.elem], acc.2)
          | some i =>
            if n.elem.oid ≠ (h2.getD i dnode).elem.oid then (acc.1, acc.2 ++ [n.elem])
            else acc) acc
      = (acc.1 ++ (l.filter (fun n => (getIndexFound h2 n.elem.uid).isNone)).map
            (fun n => n.elem),
         acc.2 ++ (l.filter (fun n =>
            match getIndexFound h2 n.elem.uid with
            | some i => decide (n.elem.oid ≠ (h2.getD i dnode).elem.oid)
            | none => false)).map (fun n => n.elem)) := by
    intro l
    induction l with
    | nil =>
      intro acc
      simp
    | cons n l ih =>
      intro acc
      rw [List.foldl_cons]
      cases hf : getIndexFound h2 n.elem.uid with
      | none =>
        have hp : ((fun n => (getIndexFound h2 n.elem.uid).isNone) n) = true := by
          simp only [hf]
          rfl
        have hq : ¬ ((fun n =>
            match getIndexFound h2 n.elem.uid with
            | some i => decide (n.elem.oid ≠ (h2.getD i dnode).elem.oid)
            | none => false) n = true) := by
          simp only [hf]
          exact Bool.false_ne_true
        simp only [hf]
        rw [ih,
          @List.filter_cons_of_pos _ (fun n => (getIndexFound h2 n.elem.uid).isNone) n l hp,
          @List.filter_cons_of_neg _ (fun n =>
            match getIndexFound h2 n.elem.uid with
            | some i => decide (n.elem.oid ≠ (h2.getD i dnode).elem.oid)
            | none => false) n l hq]
        simp
      | some i =>
        have hpnone : ¬ ((fun n => (getIndexFound h2 n.elem.uid).isNone) n = true) := by
          simp only [hf]
          exact Bool.false_ne_true
        by_cases hoid : n.elem.oid ≠ (h2.getD i dnode).elem.oid
        · have hq : ((fun n =>
              match getIndexFound h2 n.elem.uid with
              | some i => decide (n.elem.oid ≠ (h2.getD i dnode).elem.oid)
              | none => false) n) = true := by
            simp only [hf]
            exact decide_eq_true hoid
          simp only [hf]
          rw [if_pos hoid, ih,
            @List.filter_cons_of_neg _ (fun n => (getIndexFound h2 n.elem.uid).isNone) n l
              hpnone,
            @List.filter_cons_of_pos _ (fun n =>
              match getIndexFound h2 n.elem.uid with
              | some i => decide (n.elem.oid ≠ (h2.getD i dnode).elem.oid)
              | none => false) n l hq]
          simp
        · have hq : ¬ ((fun n =>
              match getIndexFound h2 n.elem.uid with
              | some i => decide (n.elem.oid ≠ (h2.getD i dnode).elem.oid)
              | none => false) n = true) := by
            simp only [hf]
            simp only [decide_eq_true_eq]
            exact fun h => h (not_not.mp hoid)
          simp only [hf]
          rw [if_neg hoid, ih,
            @List.filter_cons_of_neg _ (fun n => (getIndexFound h2 n.elem.uid).isNone) n l
              hpnone,
            @List.filter_cons_of_neg _ (fun n =>
              match getIndexFound h2 n.elem.uid with
              | some i => decide (n.elem.oid ≠ (h2.getD i dnode).elem.oid)
              | none => false) n l hq]
  have hgone : ∀ (l : List Hashnode) (acc : List Resource),
      l.foldl
        (fun (g : List Resource) m =>
          match getIndexFound h1 m.elem.uid with
          | none => g ++ [m.elem]
          | some _ => g) acc
      = acc ++ (l.filter (fun m => (getIndexFound h1 m.elem.uid).isNone)).map
          (fun m => m.elem) := by
    intro l
    induction l with
    | nil =>
      intro acc
      simp
    | cons m l ih =>
      intro acc
      rw [List.foldl_cons]
      cases hf : getIndexFound h1 m.elem.uid with
      | none =>
        have hp : ((fun m => (getIndexFound h1 m.elem.uid).isNone) m) = true := by
          simp only [hf]
          rfl
        simp only [hf]
        rw [ih,
          @List.filter_cons_of_pos _ (fun m => (getIndexFound h1 m.elem.uid).isNone) m l hp]
        simp
      | some i =>
        have hp : ¬ ((fun m => (getIndexFound h1 m.elem.uid).isNone) m = true) := by
          simp only [hf]
          exact Bool.false_ne_true
        simp only [hf]
        rw [ih,
          @List.filter_cons_of_neg _ (fun m => (getIndexFound h1 m.elem.uid).isNone) m l hp]
  unfold ringDiff
  rw [hnc h1 ([], []), hgone h2 []]
  simp

/-- Membership in the `new` bucket. -/
theorem mem_diff_new {h1 h2 : List Hashnode} (hwf2 : RingWF h2) {r : Resource} :
    r ∈ (ringDiff h1 h2).new ↔ ∃ n ∈ h1, n.elem = r ∧ ¬ uidMem h2 n.elem.uid := by
  rw [ringDiff_eq]
  simp only [List.mem_map, List.mem_filter]
  constructor
  · rintro ⟨n, ⟨hn, hpred⟩, rfl⟩
    refine ⟨n, hn, rfl, ?_⟩
    rw [← getIndexFound_none_iff_not_uidMem _ _ hwf2.1]
    exact Option.isNone_iff_eq_none.mp hpred
  · rintro ⟨n, hn, rfl, hnm⟩
    refine ⟨n, ⟨hn, ?_⟩, rfl⟩
    rw [Option.isNone_iff_eq_none, getIndexFound_none_iff_not_uidMem _ _ hwf2.1]
    exact hnm

/-- Membership in the `gone` bucket. -/
theorem mem_diff_gone {h1 h2 : List Hashnode} (hwf1 : RingWF h1) {r : Resource} :
    r ∈ (ringDiff h1 h2).gone ↔ ∃ m ∈ h2, m.elem = r ∧ ¬ uidMem h1 m.elem.uid := by
  rw [ringDiff_eq]
  simp only [List.mem_map, List.mem_filter]
  constructor
  · rintro ⟨m, ⟨hm, hpred⟩, rfl⟩
    refine ⟨m, hm, rfl, ?_⟩
    rw [← getIndexFound_none_iff_not_uidMem _ _ hwf1.1]
    exact Option.isNone_iff_eq_none.mp hpred
  · rintro ⟨m, hm, rfl, hnm⟩
    refine ⟨m, ⟨hm, ?_⟩, rfl⟩
    rw [Option.isNone_iff_eq_none, getIndexFound_none_iff_not_uidMem _ _ hwf1.1]
    exact hnm

/-- Membership in the `changed` bucket. -/
theorem mem_diff_changed {h1 h2 : List Hashnode} (hwf2 : RingWF h2) {r : Resource} :
    r ∈ (ringDiff h1 h2).changed ↔
      ∃ n ∈ h1, n.elem = r ∧ ∃ m ∈ h2, m.hashkey = n.elem.uid ∧ n.elem.oid ≠ m.elem.oid := by
  rw [ringDiff_eq]
  simp only [List.mem_map, List.mem_filter]
  constructor
  · rintro ⟨n, ⟨hn, hpred⟩, rfl⟩
    cases hfi : getIndexFound h2 n.elem.uid with
    | none =>
      rw [hfi] at hpred
      cases hpred
    | some i =>
      rw [hfi] at hpred
      have hspec := getIndexFound_spec h2 _ hfi
      have hmem : h2.getD i dnode ∈ h2 := by
        rw [List.getD_eq_getElem _ _ hspec.1]
        exact List.getElem_mem hspec.1
      exact ⟨n, hn, rfl, h2.getD i dnode, hmem, hspec.2, of_decide_eq_true hpred⟩
  · rintro ⟨n, hn, rfl, m, hm, hkey, hoid⟩
    obtain ⟨j, hj, hje⟩ := List.mem_iff_getElem.mp hm
    have hkj : (h2.getD j dnode).hashkey = n.elem.uid := by
      rw [List.getD_eq_getElem _ _ hj, hje]
      exact hkey
    have hf := getIndexFound_of_key h2 _ hwf2.1 hj hkj
    refine ⟨n, ⟨hn, ?_⟩, rfl⟩
    rw [hf]
    apply decide_eq_true
    rw [List.getD_eq_getElem _ _ hj, hje]
    exact hoid

/-- The unique ids selected from any filtered ring are pairwise
distinct. -/
theorem filter_map_uid_nodup (h : List Hashnode) (hwf : RingWF h) (p : Hashnode → Bool) :
    (((h.filter p).map (fun n => n.elem)).map (fun r => r.uid)).Nodup := by
  rw [List.map_map]
  have hpw : (h.filter p).Pairwise (fun a b => a.hashkey < b.hashkey) :=
    hwf.1.sublist (List.filter_sublist h)
  have hne : (h.filter p).Pairwise
      (fun a b => (fun n : Hashnode => n.elem.uid) a ≠ (fun n : Hashnode => n.elem.uid) b) := by
    refine List.Pairwise.imp_of_mem ?_ hpw
    intro a b ha hb hlt hequ
    have hequ' : a.elem.uid = b.elem.uid := hequ
    have ha' := hwf.2 a (List.mem_of_mem_filter ha)
    have hb' := hwf.2 b (List.mem_of_mem_filter hb)
    rw [← ha', ← hb'] at hequ'
    omega
  exact List.pairwise_map.mpr hne

/-- Every pair stored under a member's unique id is that member's
pair. -/
theorem hasPair_iff_of_mem {ns : List Hashnode} (hwf : RingWF ns) {n : Hashnode} {u o : Nat}
    (hn : n ∈ ns) (hu : n.elem.uid = u) : hasPair ns u o ↔ o = n.elem.oid := by
  constructor
  · intro hp
    exact hasPair_unique hwf hp ⟨n, hn, hu, rfl⟩
  · rintro rfl
    exact ⟨n, hn, hu, rfl⟩

/-- Two members carrying the same element unique id coincide. -/
theorem mem_elem_uid_inj {ns : List Hashnode} (hwf : RingWF ns) {n n' : Hashnode}
    (hn : n ∈ ns) (hn' : n' ∈ ns) (hequ : n.elem.uid = n'.elem.uid) : n = n' := by
  apply ringSorted_mem_key_inj hwf.1 hn hn'
  rw [hwf.2 n hn, hwf.2 n' hn', hequ]

/-! ## C3: `Diff` / `ApplyDiff` round trip -/

/-- C3: Applying `h1.Diff(h2)` onto (a copy of) `h2` — new elements
added, changed elements updated, gone elements removed, in that order —
yields a ring holding exactly `h1`'s set of `(uid, oid)` pairs; and a
ring's diff against itself is empty, so applying it is a no-op. -/
theorem diff_apply_roundtrip (now : Int) (h1 h2 : List Hashnode)
    (hwf1 : RingWF h1) (hwf2 : RingWF h2) :
    (∀ u o, hasPair (ringApplyDiff now h2 (ringDiff h1 h2)) u o ↔ hasPair h1 u o) ∧
    ringDiff h1 h1 = ⟨[], [], []⟩ ∧
    ringApplyDiff now h1 (ringDiff h1 h1) = h1 := by
  have hnew_uid : ∀ r ∈ (ringDiff h1 h2).new, uidMem h1 r.uid ∧ ¬ uidMem h2 r.uid := by
    intro r hr
    obtain ⟨n, hn, rfl, hnm⟩ := (mem_diff_new hwf2).mp hr
    exact ⟨⟨n, hn, hwf1.2 n hn⟩, hnm⟩
  have hch_uid : ∀ r ∈ (ringDiff h1 h2).changed, uidMem h1 r.uid ∧ uidMem h2 r.uid := by
    intro r hr
    obtain ⟨n, hn, rfl, m, hm, hkey, -⟩ := (mem_diff_changed hwf2).mp hr
    exact ⟨⟨n, hn, hwf1.2 n hn⟩, ⟨m, hm, hkey⟩⟩
  have hgone_uid : ∀ r ∈ (ringDiff h1 h2).gone, uidMem h2 r.uid ∧ ¬ uidMem h1 r.uid := by
    intro r hr
    obtain ⟨m, hm, rfl, hnm⟩ := (mem_diff_gone hwf1).mp hr
    exact ⟨⟨m, hm, hwf2.2 m hm⟩, hnm⟩
  have hnd_new : ((ringDiff h1 h2).new.map (fun r => r.uid)).Nodup := by
    rw [ringDiff_eq]
    exact filter_map_uid_nodup h1 hwf1 _
  have hnd_ch : ((ringDiff h1 h2).changed.map (fun r => r.uid)).Nodup := by
    rw [ringDiff_eq]
    exact filter_map_uid_nodup h1 hwf1 _
  obtain ⟨hwfA, hmemA, hpairA⟩ := foldAdd_effect now (ringDiff h1 h2).new h2 hwf2
    (fun r hr => (hnew_uid r hr).2) hnd_new
  obtain ⟨hwfB, hmemB, hpairB⟩ := foldAddOrUpdate_effect now (ringDiff h1 h2).changed
    ((ringDiff h1 h2).new.foldl (fun acc r => (ringAdd now r acc).1) h2) hwfA hnd_ch
  obtain ⟨hwfC, hmemC, hpairC⟩ := foldRemove_effect (ringDiff h1 h2).gone
    ((ringDiff h1 h2).changed.foldl (fun acc r => ringAddOrUpdate now r acc)
      ((ringDiff h1 h2).new.foldl (fun acc r => (ringAdd now r acc).1) h2)) hwfB
  have hself : ringDiff h1 h1 = ⟨[], [], []⟩ := by
    have hkeyat : ∀ n ∈ h1, ∃ j, ∃ hj : j < h1.length,
        h1[j] = n ∧ (h1.getD j dnode).hashkey = n.elem.uid := by
      intro n hn
      obtain ⟨j, hj, hje⟩ := List.mem_iff_getElem.mp hn
      refine ⟨j, hj, hje, ?_⟩
      rw [List.getD_eq_getElem _ _ hj, hje]
      exact hwf1.2 n hn
    have hnew0 : h1.filter (fun n => (getIndexFound h1 n.elem.uid).isNone) = [] := by
      rw [List.filter_eq_nil]
      intro n hn
      obtain ⟨j, hj, hje, hkj⟩ := hkeyat n hn
      rw [getIndexFound_of_key h1 _ hwf1.1 hj hkj]
      simp
    have hch0 : h1.filter (fun n =>
        match getIndexFound h1 n.elem.uid with
        | some i => decide (n.elem.oid ≠ (h1.getD i dnode).elem.oid)
        | none => false) = [] := by
      rw [List.filter_eq_nil]
      intro n hn
      obtain ⟨j, hj, hje, hkj⟩ := hkeyat n hn
      rw [getIndexFound_of_key h1 _ hwf1.1 hj hkj]
      simp only [List.getD_eq_getElem _ _ hj, hje]
      simp
    rw [ringDiff_eq, hnew0, hch0]
    simp
  refine ⟨?_, hself, by rw [hself]; rfl⟩
  intro u o
  have happ : ringApplyDiff now h2 (ringDiff h1 h2)
      = (ringDiff h1 h2).gone.foldl (fun acc r => (ringRemove r acc).1)
          ((ringDiff h1 h2).changed.foldl (fun acc r => ringAddOrUpdate now r acc)
            ((ringDiff h1 h2).new.foldl (fun acc r => (ringAdd now r acc).1) h2)) := rfl
  rw [happ, hpairC u o, hpairB u o, hpairA u o]
  by_cases hU1 : uidMem h1 u
  · obtain ⟨n1, hn1, hk1⟩ := hU1
    have hU1 : uidMem h1 u := ⟨n1, hn1, hk1⟩
    have hu1 : n1.elem.uid = u := by rw [← hwf1.2 n1 hn1]; exact hk1
    have hgone_ok : ∀ r ∈ (ringDiff h1 h2).gone, u ≠ r.uid := by
      intro r hr heq
      exact (hgone_uid r hr).2 (heq ▸ hU1)
    by_cases hU2 : uidMem h2 u
    · obtain ⟨m2, hm2, hk2⟩ := hU2
      have hU2 : uidMem h2 u := ⟨m2, hm2, hk2⟩
      have hu2 : m2.elem.uid = u := by rw [← hwf2.2 m2 hm2]; exact hk2
      have hnew_no : ∀ r ∈ (ringDiff h1 h2).new, r.uid ≠ u := by
        intro r hr heq
        exact (hnew_uid r hr).2 (heq ▸ hU2)
      by_cases hoid : n1.elem.oid = m2.elem.oid
      · have hch_no : ¬ ∃ r ∈ (ringDiff h1 h2).changed, r.uid = u := by
          rintro ⟨r, hr, hru⟩
          obtain ⟨n, hn, rfl, m, hm, hkey, hne⟩ := (mem_diff_changed hwf2).mp hr
          have hnn1 : n = n1 := mem_elem_uid_inj hwf1 hn hn1 (by rw [hru, hu1])
          have hmm2 : m = m2 := by
            apply ringSorted_mem_key_inj hwf2.1 hm hm2
            rw [hkey, hru, hk2]
          subst hnn1
          subst hmm2
          exact hne hoid
        constructor
        · rintro ⟨hB, -⟩
          rcases hB with ⟨r, hr, hru, hro⟩ | ⟨-, hA⟩
          · exact absurd ⟨r, hr, hru⟩ hch_no
          · rcases hA with hp2 | ⟨r, hr, hru, hro⟩
            · have ho2 : o = m2.elem.oid := (hasPair_iff_of_mem hwf2 hm2 hu2).mp hp2
              refine (hasPair_iff_of_mem hwf1 hn1 hu1).mpr ?_
              rw [ho2, hoid]
            · exact absurd hru (hnew_no r hr)
        · intro hp1
          refine ⟨Or.inr ⟨hch_no, Or.inl ?_⟩, hgone_ok⟩
          have ho1 : o = n1.elem.oid := (hasPair_iff_of_mem hwf1 hn1 hu1).mp hp1
          refine (hasPair_iff_of_mem hwf2 hm2 hu2).mpr ?_
          rw [ho1, hoid]
      · have hch_mem : n1.elem ∈ (ringDiff h1 h2).changed := by
          refine (mem_diff_changed hwf2).mpr ⟨n1, hn1, rfl, m2, hm2, ?_, ?_⟩
          · rw [hk2, hu1]
          · exact hoid
        constructor
        · rintro ⟨hB, -⟩
          rcases hB with ⟨r, hr, hru, hro⟩ | ⟨hnoch, -⟩
          · obtain ⟨n, hn, rfl, -⟩ := (mem_diff_changed hwf2).mp hr
            exact ⟨n, hn, hru, hro⟩
          · exact absurd ⟨n1.elem, hch_mem, hu1⟩ hnoch
        · intro hp1
          have ho1 : o = n1.elem.oid := (hasPair_iff_of_mem hwf1 hn1 hu1).mp hp1
          exact ⟨Or.inl ⟨n1.elem, hch_mem, hu1, ho1.symm⟩, hgone_ok⟩
    · have hch_no : ¬ ∃ r ∈ (ringDiff h1 h2).changed, r.uid = u := by
        rintro ⟨r, hr, hru⟩
        exact hU2 (hru ▸ (hch_uid r hr).2)
      have hnew_mem : n1.elem ∈ (ringDiff h1 h2).new := by
        refine (mem_diff_new hwf2).mpr ⟨n1, hn1, rfl, ?_⟩
        rw [hu1]
        exact hU2
      constructor
      · rintro ⟨hB, -⟩
        rcases hB with ⟨r, hr, hru, -⟩ | ⟨-, hA⟩
        · exact absurd ⟨r, hr, hru⟩ hch_no
        · rcases hA with hp2 | ⟨r, hr, hru, hro⟩
          · exact absurd (uidMem_of_hasPair hwf2 hp2) hU2
          · obtain ⟨n, hn, rfl, -⟩ := (mem_diff_new hwf2).mp hr
            exact ⟨n, hn, hru, hro⟩
      · intro hp1
        have ho1 : o = n1.elem.oid := (hasPair_iff_of_mem hwf1 hn1 hu1).mp hp1
        exact ⟨Or.inr ⟨hch_no, Or.inr ⟨n1.elem, hnew_mem, hu1, ho1.symm⟩⟩, hgone_ok⟩
  · by_cases hU2 : uidMem h2 u
    · obtain ⟨m2, hm2, hk2⟩ := hU2
      have hu2 : m2.elem.uid = u := by rw [← hwf2.2 m2 hm2]; exact hk2
      have hgone_mem : m2.elem ∈ (ringDiff h1 h2).gone := by
        refine (mem_diff_gone hwf1).mpr ⟨m2, hm2, rfl, ?_⟩
        rw [hu2]
        exact hU1
      constructor
      · rintro ⟨-, hgall⟩
        exact absurd hu2.symm (hgall m2.elem hgone_mem)
      · intro hp1
        exact absurd (uidMem_of_hasPair hwf1 hp1) hU1
    · constructor
      · rintro ⟨hB, -⟩
        rcases hB with ⟨r, hr, hru, -⟩ | ⟨-, hA⟩
        · exact absurd (hru ▸ (hch_uid r hr).1) hU1
        · rcases hA with hp2 | ⟨r, hr, hru, -⟩
          · exact absurd (uidMem_of_hasPair hwf2 hp2) hU2
          · exact absurd (hru ▸ (hnew_uid r hr).1) hU1
      · intro hp1
        exact absurd (uidMem_of_hasPair hwf1 hp1) hU1

/-- Witness for C3: a two-node ring against a two-node ring differing in
one object id and one membership, applied at time 9; the pair sets agree
afterwards, and the self-diff is empty. -/
theorem diff_apply_roundtrip_witness :
    (hasPair (ringApplyDiff 9 [nodeA, nodeB]
        (ringDiff [{ hashkey := 1, elem := mkRes 1 11, lastUpdate := 0 }, nodeC]
          [nodeA, nodeB])) 1 11 ↔
      hasPair [{ hashkey := 1, elem := mkRes 1 11, lastUpdate := 0 }, nodeC] 1 11) ∧
    ringDiff [nodeA, nodeB] [nodeA, nodeB] = ⟨[], [], []⟩ := by
  have hwfAB : RingWF [nodeA, nodeB] := by
    constructor
    · unfold RingSorted
      simp [nodeA, nodeB]
    · intro n hn
      rcases List.mem_cons.mp hn with rfl | hn
      · rfl
      · rcases List.mem_singleton.mp hn with rfl
        rfl
  have hwf1 : RingWF [{ hashkey := 1, elem := mkRes 1 11, lastUpdate := 0 }, nodeC] := by
    constructor
    · unfold RingSorted
      simp [nodeC, mkRes]
    · intro n hn
      rcases List.mem_cons.mp hn with rfl | hn
      · rfl
      · rcases List.mem_singleton.mp hn with rfl
        rfl
  constructor
  · exact (diff_apply_roundtrip 9
      [{ hashkey := 1, elem := mkRes 1 11, lastUpdate := 0 }, nodeC]
      [nodeA, nodeB] hwf1 hwfAB).1 1 11
  · exact (diff_apply_roundtrip 9 [nodeA, nodeB] [nodeA, nodeB] hwfAB hwfAB).2.1

end Rdsys
